import Mathlib

/-!
Verification of the SLADE `ArchiveManager` (src/Archive/ArchiveManager.cpp).

This file gives a shallow embedding of the archive-registry state machine and
its operations, translated from the C++ source, together with proofs that
settle the frozen specification claims.

Modelling conventions:
* Archive objects (`Archive*`) are identified by `Nat` handles.  The data
  that lives on the archive object itself (filename, format id, parent
  entry) is stored in `ManagerState.objects`, an association list from
  handle to `ArchiveInfo`, since archives are allocated dynamically.
* `ArchiveEntry*` and `ArchiveTreeNode*` values are `Nat` identifiers whose
  observable behaviour (`entry->parent()`, `node->archive()`, format probes,
  per-archive entry search, filesystem tests, cvar values) is provided by an
  oracle `Env`, which models external collaborators of the file: the
  per-format `Archive` implementations, filesystem, and configuration.
* The wxWidgets announcement mechanism is modelled as the list
  `ManagerState.events` of emitted notification names (in emission order);
  `Announcer::setMuted` suppresses emission, mirrored by `ManagerState.muted`.
* Calls that only touch external state (`App::resources()`, `listenTo`,
  `UI::showSplash`, `Log`) do not change `ManagerState` and are omitted.
* Recursion that is unbounded in C++ (cascading close over the child graph,
  auto-mounting embedded archives) receives an explicit fuel parameter; fuel
  exhaustion can only happen on states that the invariants below rule out.
-/

/-- One element of the `open_archives_` vector (struct `OpenArchive`):
the archive handle, its resource flag, and its open child archives. -/
structure OpenArchive where
  archive : Nat
  resource : Bool
  open_children : List Nat
deriving DecidableEq

instance : Inhabited OpenArchive := ⟨⟨0, true, []⟩⟩

/-- Data carried by an `Archive` object itself: `filename()`, `formatId()`
and `parentEntry()` (the entry this archive was opened from, if any). -/
structure ArchiveInfo where
  filename : String
  formatId : String
  parentEntry : Option Nat
deriving DecidableEq

/-- Oracle for everything outside ArchiveManager.cpp: format detectors,
`Archive` implementation behaviour, entry/tree accessors, the filesystem,
and configuration cvars. -/
structure Env where
  /-- Collapses the `isWadArchive`/`isZipArchive`/... detector chain run on a
  file: `some fmt` when the first matching detector is the one for `fmt`
  (`"wad"` first, `"zip"` second, further formats after), `none` when no
  detector matches (unsupported format). -/
  detectFile : String → Option String
  /-- Result of `new_archive->open(filename)` for a file. -/
  openFileOk : String → Bool
  /-- Result of `new_archive->open(dir)` for a `DirArchive`. -/
  openDirOk : String → Bool
  /-- Detector chain run on an entry's in-memory data. -/
  detectEntry : Nat → Option String
  /-- Result of `new_archive->open(entry)`. -/
  openEntryOk : Nat → Bool
  /-- `entry->parent()`: the archive a given entry belongs to. -/
  entryParent : Nat → Option Nat
  /-- `archive->entry(name)` on the archive with the given handle. -/
  entryLookup : Nat → String → Option Nat
  /-- `archive->findLast(options)`; search options are opaque `Nat` ids. -/
  findLast : Nat → Nat → Option Nat
  /-- `archive->findAll(options)`. -/
  findAll : Nat → Nat → List Nat
  /-- `archive->rootDir()->allEntries()`. -/
  rootEntries : Nat → List Nat
  /-- Whether an entry's (detected) type id is `"wad"`. -/
  entryIsWad : Nat → Bool
  /-- Filename assigned by `Archive::open(entry)` to an entry-backed archive. -/
  entryFilename : Nat → String
  /-- `node->archive()` for a directory tree node. -/
  nodeArchive : Nat → Nat
  /-- `node->dirEntry()`. -/
  dirEntry : Nat → Nat
  /-- `entry->parentDir()`. -/
  entryParentDir : Nat → Nat
  /-- `node->parent()` (as a tree node). -/
  nodeParent : Nat → Nat
  /-- `archive->rootDir()` as a tree node. -/
  rootDir : Nat → Nat
  /-- `wxFile::Exists` / `wxFileName::FileExists`. -/
  fileExists : String → Bool
  /-- `wxDirExists`. -/
  dirExists : String → Bool
  /-- cvar `auto_open_wads_root`. -/
  auto_open_wads_root : Bool
  /-- cvar `max_recent_files` (spec: integer ≥ 0). -/
  max_recent_files : Nat

/-- The mutable state of an `ArchiveManager` instance, together with the
trace of emitted notifications. -/
structure ManagerState where
  /-- `open_archives_`. -/
  open_archives : List OpenArchive
  /-- The allocated `Archive` objects (handle, data); closing an archive
  deletes the C++ object but we keep the (now dangling) record. -/
  objects : List (Nat × ArchiveInfo)
  /-- Next fresh handle for `new ...Archive()`. -/
  next : Nat
  /-- `bookmarks_` (entry ids). -/
  bookmarks : List Nat
  /-- `base_resource_archive_` (handle, if loaded). -/
  base_resource_archive : Option Nat
  /-- cvar `base_resource` (`-1` = none selected). -/
  base_resource : Int
  /-- `base_resource_paths_`. -/
  base_resource_paths : List String
  /-- `recent_files_`. -/
  recent_files : List String
  /-- `Announcer` muted flag. -/
  muted : Bool
  /-- Names of emitted notifications, in order. -/
  events : List String
deriving DecidableEq

/-- `announce(name)`: append the event unless the announcer is muted. -/
def announceE (s : ManagerState) (name : String) : ManagerState :=
  if s.muted then s else { s with events := s.events ++ [name] }

/-- Number of emitted notifications with the given name. -/
def countEvt (s : ManagerState) (name : String) : Nat :=
  s.events.count name

/-- The handles of the currently tracked archives, in registration order. -/
def handles (l : List OpenArchive) : List Nat :=
  l.map (fun r => r.archive)

/-- Look up the `ArchiveInfo` of a handle in the object store. -/
def objLookup (objs : List (Nat × ArchiveInfo)) (h : Nat) : Option ArchiveInfo :=
  (objs.find? (fun pr => pr.1 == h)).map (fun pr => pr.2)

/-- `archive->filename()` for a handle (empty if the object is unknown). -/
def filenameOf (s : ManagerState) (h : Nat) : String :=
  ((objLookup s.objects h).map (fun i => i.filename)).getD ""

/-- `archive->formatId()` for a handle. -/
def formatOf (s : ManagerState) (h : Nat) : String :=
  ((objLookup s.objects h).map (fun i => i.formatId)).getD ""

/-- `archive->parentEntry()` for a handle. -/
def parentEntryOf (objs : List (Nat × ArchiveInfo)) (h : Nat) : Option Nat :=
  (objLookup objs h).bind (fun i => i.parentEntry)

/-- `archive->parentEntry()->parent()`: the archive that the parent entry of
the given archive belongs to (the "grandparent" lookup of `closeArchive`). -/
def apArchive (objs : List (Nat × ArchiveInfo)) (env : Env) (h : Nat) : Option Nat :=
  (parentEntryOf objs h).bind env.entryParent

/-- Index of the first list element satisfying a predicate.  This is the
loop skeleton of `ArchiveManager::archiveIndex` (which returns `-1`, i.e.
`none` here, when nothing matches). -/
def findIndex (p : OpenArchive → Bool) : List OpenArchive → Option Nat
  | [] => none
  | r :: rs => if p r then some 0 else (findIndex p rs).map (fun n => n + 1)

/-- `ArchiveManager::archiveIndex(archive)` (as `Option`; C++ uses `-1`). -/
def archiveIndexOf (l : List OpenArchive) (h : Nat) : Option Nat :=
  findIndex (fun r => r.archive == h) l

/-- `ArchiveManager::getArchive(filename)`: first open archive whose
filename compares equal to the argument (exact string comparison). -/
def getArchiveByFilename (s : ManagerState) (filename : String) : Option Nat :=
  (s.open_archives.find? (fun r => filenameOf s r.archive == filename)).map
    (fun r => r.archive)

/-- Allocate a fresh `Archive` object.  (On C++ failure paths the freshly
allocated object is `delete`d before anything observes it, so the model
allocates only on the paths where the object survives.) -/
def allocObject (s : ManagerState) (info : ArchiveInfo) : Nat × ManagerState :=
  (s.next, { s with next := s.next + 1, objects := s.objects ++ [(s.next, info)] })

/-- Update the `open_children` list of the registry record at position `i`
(the `open_archives_[i].open_children` mutations of the C++ code). -/
def setChildren (l : List OpenArchive) (i : Nat) (f : List Nat → List Nat) :
    List OpenArchive :=
  let r := l.getD i default
  l.set i { r with open_children := f r.open_children }

/-! ### Recent-file list (lines 1004-1086) -/

/-- The backslash normalization performed by `addRecentFile`
(`path.Replace("\\", "/")`), character by character. -/
def normalizePath (p : String) : String :=
  ⟨p.data.map (fun c => if c = '\\' then '/' else c)⟩

/-- `ArchiveManager::addRecentFile` (lines 1016-1050).  The C++ trimming loop
`while (recent_files_.size() > max) pop_back()` keeps exactly the first
`max` elements, written here as `List.take`. -/
def addRecentFile (env : Env) (path : String) (s : ManagerState) : ManagerState :=
  -- Check the path is valid (exists as a file or directory)
  if env.fileExists path || env.dirExists path then
    let path := normalizePath path
    if path ∈ s.recent_files then
      -- Move this file to the top of the list
      announceE { s with recent_files := path :: s.recent_files.erase path }
        "recent_files_changed"
    else
      -- Add to the top, keep it trimmed
      announceE
        { s with recent_files := (path :: s.recent_files).take env.max_recent_files }
        "recent_files_changed"
  else
    s

/-- `ArchiveManager::removeRecentFile` (lines 1075-1086). -/
def removeRecentFile (path : String) (s : ManagerState) : ManagerState :=
  if path ∈ s.recent_files then
    announceE { s with recent_files := s.recent_files.erase path } "recent_files_changed"
  else
    s

/-- `ArchiveManager::addRecentFiles` (lines 1055-1070): mute, clear, add each,
unmute, announce once. -/
def addRecentFiles (env : Env) (paths : List String) (s : ManagerState) : ManagerState :=
  let s := { s with muted := true, recent_files := [] }
  let s := paths.foldl (fun t p => addRecentFile env p t) s
  announceE { s with muted := false } "recent_files_changed"

/-! ### Bookmarks (lines 1091-1218) -/

/-- `ArchiveManager::addBookmark` (lines 1091-1105). -/
def addBookmark (entry : Nat) (s : ManagerState) : ManagerState :=
  if entry ∈ s.bookmarks then s
  else announceE { s with bookmarks := s.bookmarks ++ [entry] } "bookmarks_changed"

/-- `ArchiveManager::deleteBookmark(entry)` (lines 1110-1129): removes the
first matching bookmark and announces; returns whether anything was removed. -/
def deleteBookmark (entry : Nat) (s : ManagerState) : Bool × ManagerState :=
  if entry ∈ s.bookmarks then
    (true, announceE { s with bookmarks := s.bookmarks.erase entry } "bookmarks_changed")
  else
    (false, s)

/-- `ArchiveManager::deleteBookmark(index)` (lines 1134-1147). -/
def deleteBookmarkAt (index : Nat) (s : ManagerState) : Bool × ManagerState :=
  if index < s.bookmarks.length then
    (true, announceE { s with bookmarks := s.bookmarks.eraseIdx index } "bookmarks_changed")
  else
    (false, s)

/-- `ArchiveManager::deleteBookmarksInArchive` (lines 1152-1175).  The C++
erase-inside-loop with the `a--` correction removes every bookmark whose
entry's parent archive is the given one, i.e. a `filter`. -/
def deleteBookmarksInArchive (env : Env) (archive : Nat) (s : ManagerState) :
    Bool × ManagerState :=
  let kept := s.bookmarks.filter (fun e => !(env.entryParent e == some archive))
  if kept.length = s.bookmarks.length then
    (false, s)
  else
    (true, announceE { s with bookmarks := kept } "bookmarks_changed")

/-- The ancestor walk of `deleteBookmarksInDir` (lines 1194-1200):
`while (anode != archive->rootDir() && !remove) { if (anode == node) remove
else anode = anode->parent() }`.  The C++ loop does not terminate on a cyclic
parent chain; the model stops (returning `false`) when fuel runs out. -/
def walkHits (env : Env) : Nat → Nat → Nat → Nat → Bool
  | 0, _, _, _ => false
  | fuel + 1, root, node, anode =>
    if anode = root then false
    else if anode = node then true
    else walkHits env fuel root node (env.nodeParent anode)

/-- `ArchiveManager::deleteBookmarksInDir` (lines 1180-1218).  Note that the
bookmark on the directory's own entry is removed through the single-entry
`deleteBookmark`, which performs its own announcement. -/
def deleteBookmarksInDir (env : Env) (fuel : Nat) (node : Nat) (s : ManagerState) :
    Bool × ManagerState :=
  let archive := env.nodeArchive node
  let removed0 := (deleteBookmark (env.dirEntry node) s).1
  let s1 := (deleteBookmark (env.dirEntry node) s).2
  let kept := s1.bookmarks.filter (fun e =>
    !(env.entryParent e == some archive &&
      walkHits env fuel (env.rootDir archive) node (env.entryParentDir e)))
  let removed := removed0 || !(kept.length = s1.bookmarks.length)
  let s2 := { s1 with bookmarks := kept }
  if removed then (true, announceE s2 "bookmarks_changed") else (false, s2)

/-! ### Base resource manager (lines 802-907) -/

/-- `ArchiveManager::addBaseResourcePath` (lines 802-822). -/
def addBaseResourcePath (env : Env) (path : String) (s : ManagerState) :
    Bool × ManagerState :=
  if !env.fileExists path then (false, s)
  else if path ∈ s.base_resource_paths then (false, s)
  else
    (true, announceE { s with base_resource_paths := s.base_resource_paths ++ [path] }
      "base_resource_path_added")

/-- `ArchiveManager::openBaseResource` (lines 863-907).  The freshly created
archive object is recorded only on the success path (on failure C++ deletes
it immediately).  Note the unrecognized-format branch (lines 890-891) returns
`false` without announcing and without touching the `base_resource` cvar. -/
def openBaseResource (env : Env) (index : Int) (s : ManagerState) :
    Bool × ManagerState :=
  -- Check we're opening a different archive
  if s.base_resource_archive.isSome && s.base_resource == index then (true, s)
  else
    -- Close/delete current base resource archive
    let s := { s with base_resource_archive := none }
    -- Check index
    if index < 0 || (s.base_resource_paths.length : Int) ≤ index then
      (false, announceE { s with base_resource := -1 } "base_resource_changed")
    else
      let filename := s.base_resource_paths.getD index.toNat ""
      let fmt := env.detectFile filename
      if fmt == some "wad" || fmt == some "zip" then
        if env.openFileOk filename then
          let (h, s) := allocObject s ⟨filename, fmt.getD "", none⟩
          (true,
            announceE { s with base_resource := index, base_resource_archive := some h }
              "base_resource_changed")
        else
          (false, announceE s "base_resource_changed")
      else
        -- Unsupported base resource format: no announcement, cvar untouched
        (false, s)

/-- `ArchiveManager::removeBaseResourcePath` (lines 827-846).  The C++
comparison `index == (unsigned)base_resource` is equality of `index` and
`base_resource` as integers whenever `index < size` (a negative cvar casts
to a huge unsigned value and never matches). -/
def removeBaseResourcePath (env : Env) (index : Nat) (s : ManagerState) : ManagerState :=
  if index < s.base_resource_paths.length then
    let s :=
      if s.base_resource == (index : Int) then (openBaseResource env (-1) s).2
      else if (index : Int) < s.base_resource then
        { s with base_resource := s.base_resource - 1 }
      else s
    announceE { s with base_resource_paths := s.base_resource_paths.eraseIdx index }
      "base_resource_path_removed"
  else
    s

/-! ### Resource resolver (lines 913-999) -/

/-- The open-archive loop of `getResourceEntry` (lines 916-930): first match
in registration order, skipping non-resource archives and the ignored one. -/
def searchOpenFirst (env : Env) (name : String) (ignore : Option Nat) :
    List OpenArchive → Option Nat
  | [] => none
  | r :: rs =>
    if !r.resource then searchOpenFirst env name ignore rs
    else if ignore == some r.archive then searchOpenFirst env name ignore rs
    else
      match env.entryLookup r.archive name with
      | some e => some e
      | none => searchOpenFirst env name ignore rs

/-- `ArchiveManager::getResourceEntry` (lines 913-937): open archives in
order, then the base resource archive. -/
def getResourceEntry (env : Env) (s : ManagerState) (name : String)
    (ignore : Option Nat) : Option Nat :=
  match searchOpenFirst env name ignore s.open_archives with
  | some e => some e
  | none =>
    match s.base_resource_archive with
    | some b => env.entryLookup b name
    | none => none

/-- The open-archive loop of `findResourceEntry` (lines 944-959). -/
def searchOpenLast (env : Env) (options : Nat) (ignore : Option Nat) :
    List OpenArchive → Option Nat
  | [] => none
  | r :: rs =>
    if !r.resource then searchOpenLast env options ignore rs
    else if ignore == some r.archive then searchOpenLast env options ignore rs
    else
      match env.findLast r.archive options with
      | some e => some e
      | none => searchOpenLast env options ignore rs

/-- `ArchiveManager::findResourceEntry` (lines 942-966). -/
def findResourceEntry (env : Env) (s : ManagerState) (options : Nat)
    (ignore : Option Nat) : Option Nat :=
  match searchOpenLast env options ignore s.open_archives with
  | some e => some e
  | none =>
    match s.base_resource_archive with
    | some b => env.findLast b options
    | none => none

/-- `ArchiveManager::findAllResourceEntries` (lines 971-999): the base
resource archive is searched first, then each eligible open archive's
matches are appended in registration order. -/
def findAllResourceEntries (env : Env) (s : ManagerState) (options : Nat)
    (ignore : Option Nat) : List Nat :=
  let ret :=
    match s.base_resource_archive with
    | some b => env.findAll b options
    | none => []
  s.open_archives.foldl
    (fun acc r =>
      if !r.resource then acc
      else if ignore == some r.archive then acc
      else acc ++ env.findAll r.archive options)
    ret

/-! ### Cascading close (lines 585-697) -/

/-- The tail of `ArchiveManager::closeArchive(index)` after the child loop
(lines 614-649): detach from the parent's open-child list, close and delete
the archive object, remove the registry record, announce.  The C++ code
re-reads `open_archives_[index]` here with the index computed before the
child loop; an out-of-range re-access would be undefined behaviour in C++
and is modelled as leaving the registry untouched (unreachable for
well-formed registries, see `WFr`). -/
def closeFinish (env : Env) (index : Nat) (s4 : ManagerState) : Bool × ManagerState :=
  if index < s4.open_archives.length then
    let rec1 := s4.open_archives.getD index default
    -- Remove ourselves from our parent's open-child list
    let s5 :=
      match apArchive s4.objects env rec1.archive with
      | none => s4
      | some gp =>
        match archiveIndexOf s4.open_archives gp with
        | none => s4
        | some pi =>
          { s4 with open_archives :=
              setChildren s4.open_archives pi (fun cs => cs.erase rec1.archive) }
    -- archive->close(); delete archive; remove the record at index
    let s6 := { s5 with open_archives := s5.open_archives.eraseIdx index }
    (true, announceE s6 "archive_closed")
  else
    (true, s4)

mutual

/-- `ArchiveManager::closeArchive(index)` (lines 585-650), with fuel for the
recursion through child archives (the C++ recursion is unbounded; for a
well-formed registry a fuel of `open_archives.length` suffices, see
`closeArchive`). -/
def closeArchiveFuel (env : Env) (fuel index : Nat) (s : ManagerState) :
    Bool × ManagerState :=
  match fuel with
  | 0 => (false, s)
  | fuel + 1 =>
    -- Check for invalid index
    if index < s.open_archives.length then
      let rec0 := s.open_archives.getD index default
      -- Announce archive closing
      let s1 := announceE s "archive_closing"
      -- Delete any bookmarked entries contained in the archive
      let s2 := (deleteBookmarksInArchive env rec0.archive s1).2
      -- (Removal from the shared resource pool is external state.)
      -- Close any open child archives
      -- Clear out the open_children vector first, keeping a snapshot
      let s3 := { s2 with
        open_archives := s2.open_archives.set index { rec0 with open_children := [] } }
      let s4 := closeChildrenLoop env fuel rec0.open_children s3
      closeFinish env index s4
    else (false, s)
termination_by (fuel, 0)

/-- The child-closing loop of `closeArchive` (lines 607-612): for each
snapshotted child, look up its current index and close it if still tracked. -/
def closeChildrenLoop (env : Env) (fuel : Nat) (cs : List Nat) (s : ManagerState) :
    ManagerState :=
  match cs with
  | [] => s
  | c :: cs =>
    let s1 :=
      match archiveIndexOf s.open_archives c with
      | some ci => (closeArchiveFuel env fuel ci s).2
      | none => s
    closeChildrenLoop env fuel cs s1
termination_by (fuel, cs.length + 1)

end

/-- `ArchiveManager::closeArchive(index)` with the fuel a well-formed
registry needs. -/
def closeArchive (env : Env) (index : Nat) (s : ManagerState) : Bool × ManagerState :=
  closeArchiveFuel env s.open_archives.length index s

/-- `ArchiveManager::closeArchive(archive)` (lines 675-687). -/
def closeArchiveHandle (env : Env) (h : Nat) (s : ManagerState) : Bool × ManagerState :=
  match archiveIndexOf s.open_archives h with
  | some i => closeArchive env i s
  | none => (false, s)

/-- `ArchiveManager::getDependentArchives` (lines 721-737): pre-order list of
all transitive children, with fuel for the unbounded C++ recursion.  (When
the queried archive is not tracked the C++ code indexes `open_archives_[-1]`,
undefined behaviour; the model returns the empty list.) -/
def getDependentArchivesFuel (l : List OpenArchive) : Nat → Nat → List Nat
  | 0, _ => []
  | fuel + 1, h =>
    match l.find? (fun r => r.archive == h) with
    | none => []
    | some r => r.open_children.flatMap (fun c => c :: getDependentArchivesFuel l fuel c)

/-- `getDependentArchives` at the fuel sufficient for well-formed registries. -/
def getDependentArchives (s : ManagerState) (h : Nat) : List Nat :=
  getDependentArchivesFuel s.open_archives s.open_archives.length h

/-! ### Opening archives (lines 185-548) -/

mutual

/-- `ArchiveManager::addArchive` (lines 185-224): append the registry record
(resource flag true, no children), announce `archive_added`, and — when the
new archive is a zip/folder and `auto_open_wads_root` is set — auto-mount
every root-level wad entry as a managed, silent child.  Fuel bounds the
auto-mount recursion (unbounded in C++). -/
def addArchive (env : Env) (fuel : Nat) (h : Nat) (s : ManagerState) : ManagerState :=
  -- Add to the list; listen to the archive (external); announce the addition
  let s := { s with open_archives := s.open_archives ++ [⟨h, true, []⟩] }
  let s := announceE s "archive_added"
  -- (Resource manager registration is external state.)
  -- ZDoom also loads any WADs found in the root of a PK3 or directory
  if (formatOf s h == "zip" || formatOf s h == "folder") && env.auto_open_wads_root then
    match fuel with
    | 0 => s
    | fuel + 1 =>
      (env.rootEntries h).foldl
        (fun t e =>
          if env.entryIsWad e then (openArchiveEntry env fuel e true true t).2 else t)
        s
  else s
termination_by (fuel, 0)

/-- `ArchiveManager::openArchive(entry, manage, silent)` (lines 375-488). -/
def openArchiveEntry (env : Env) (fuel : Nat) (entry : Nat) (manage silent : Bool)
    (s : ManagerState) : Option Nat × ManagerState :=
  -- Check if the entry is already opened
  match s.open_archives.find? (fun r => parentEntryOf s.objects r.archive == some entry) with
  | some r => (some r.archive, if silent then s else announceE s "archive_opened")
  | none =>
    -- Check entry type (format detector chain on the entry data)
    match env.detectEntry entry with
    | none => (none, s)
    | some fmt =>
      -- If it opened successfully, add it to the list & return it
      if env.openEntryOk entry then
        let (h, s) := allocObject s ⟨env.entryFilename entry, fmt, some entry⟩
        if manage then
          -- Add to parent's child list if the parent is open in the manager
          let s :=
            match env.entryParent entry with
            | some p =>
              match archiveIndexOf s.open_archives p with
              | some pi =>
                { s with open_archives :=
                    setChildren s.open_archives pi (fun cs => cs ++ [h]) }
              | none => s
            | none => s
          let s := addArchive env fuel h s
          (some h, if silent then s else announceE s "archive_opened")
        else (some h, s)
      else (none, s)
termination_by (fuel, 1)

end

/-- `ArchiveManager::openDirArchive` (lines 494-548). -/
def openDirArchive (env : Env) (fuel : Nat) (dir : String) (manage silent : Bool)
    (s : ManagerState) : Option Nat × ManagerState :=
  -- If the archive is already open, just return it
  match getArchiveByFilename s dir with
  | some h => (some h, if silent then s else announceE s "archive_opened")
  | none =>
    -- new DirArchive(); open it
    if env.openDirOk dir then
      let (h, s) := allocObject s ⟨dir, "folder", none⟩
      if manage then
        let s := addArchive env fuel h s
        let s := if silent then s else announceE s "archive_opened"
        (some h, addRecentFile env dir s)
      else (some h, s)
    else (none, s)

/-- `ArchiveManager::openArchive(filename, manage, silent)` (lines 260-370). -/
def openArchiveFile (env : Env) (fuel : Nat) (filename : String) (manage silent : Bool)
    (s : ManagerState) : Option Nat × ManagerState :=
  -- Check for directory
  if !env.fileExists filename && env.dirExists filename then
    openDirArchive env fuel filename manage silent s
  else
    -- If the archive is already open, just return it
    match getArchiveByFilename s filename with
    | some h => (some h, if silent then s else announceE s "archive_opened")
    | none =>
      -- Determine file format (detector chain)
      match env.detectFile filename with
      | none => (none, s)
      | some fmt =>
        -- If it opened successfully, add it to the list if needed & return it
        if env.openFileOk filename then
          let (h, s) := allocObject s ⟨filename, fmt, none⟩
          if manage then
            let s := addArchive env fuel h s
            let s := if silent then s else announceE s "archive_opened"
            (some h, addRecentFile env filename s)
          else (some h, s)
        else (none, s)

/-- The records the resolver loops do not skip: resource flag set and not
the ignored archive. -/
def eligibleArchives (ignore : Option Nat) (l : List OpenArchive) : List OpenArchive :=
  l.filter (fun r => r.resource && !(ignore == some r.archive))

/-- The base-archive fallback of `getResourceEntry` (lines 933-936). -/
def baseEntryLookup (env : Env) (s : ManagerState) (name : String) : Option Nat :=
  match s.base_resource_archive with
  | some b => env.entryLookup b name
  | none => none

/-- The base-archive fallback of `findResourceEntry` (lines 962-965). -/
def baseFindLast (env : Env) (s : ManagerState) (options : Nat) : Option Nat :=
  match s.base_resource_archive with
  | some b => env.findLast b options
  | none => none

/-- The base-archive head of `findAllResourceEntries` (lines 976-980). -/
def baseFindAll (env : Env) (s : ManagerState) (options : Nat) : List Nat :=
  match s.base_resource_archive with
  | some b => env.findAll b options
  | none => []

/-! ### Registry well-formedness -/

/-- The record transformer "remove `x` from the child list" (the effect of
the detach step of `closeArchive` on the parent's record). -/
def eAc (x : Nat) (r : OpenArchive) : OpenArchive :=
  { r with open_children := r.open_children.erase x }

/-- Parent/child edge as recorded in the registry: some tracked record for
`u` lists `v` among its open children. -/
def Edge (l : List OpenArchive) (u v : Nat) : Prop :=
  ∃ r ∈ l, r.archive = u ∧ v ∈ r.open_children

/-- `Reaches l u v`: `v` is `u` itself or a transitively tracked descendant
of `u` (reflexive-transitive closure of the recorded child edges). -/
def Reaches (l : List OpenArchive) (u v : Nat) : Prop :=
  Relation.ReflTransGen (Edge l) u v

/-- Well-formedness of the registry, the invariants the C++ code maintains
for `open_archives_`:
* tracked handles are pairwise distinct;
* a listed child's parent entry belongs to exactly the listing archive
  (spec §3: "a registry record's child list is exactly the set of open
  archives whose back-reference entry belongs to this archive");
* child lists have no duplicates and never list their own archive;
* a child is always registered after its parent (children are pushed to
  `open_archives_` after the parent record exists), i.e. no record lists
  the archive of an earlier-or-equal record. -/
def WFr (env : Env) (objs : List (Nat × ArchiveInfo)) (l : List OpenArchive) : Prop :=
  (handles l).Nodup ∧
  (∀ r ∈ l, ∀ c ∈ r.open_children, apArchive objs env c = some r.archive) ∧
  (∀ r ∈ l, r.open_children.Nodup) ∧
  (∀ r ∈ l, r.archive ∉ r.open_children) ∧
  List.Pairwise (fun r1 r2 => r1.archive ∉ r2.open_children) l

/-! ### Concrete oracles and states for witnesses and counterexamples -/

/-- A trivial oracle; concrete scenarios override the fields they need. -/
def baseEnv : Env where
  detectFile := fun _ => none
  openFileOk := fun _ => false
  openDirOk := fun _ => false
  detectEntry := fun _ => none
  openEntryOk := fun _ => false
  entryParent := fun _ => none
  entryLookup := fun _ _ => none
  findLast := fun _ _ => none
  findAll := fun _ _ => []
  rootEntries := fun _ => []
  entryIsWad := fun _ => false
  entryFilename := fun _ => ""
  nodeArchive := fun _ => 0
  dirEntry := fun _ => 0
  entryParentDir := fun _ => 0
  nodeParent := fun _ => 0
  rootDir := fun _ => 0
  fileExists := fun _ => false
  dirExists := fun _ => false
  auto_open_wads_root := false
  max_recent_files := 25

/-- A freshly constructed manager: nothing open, nothing selected. -/
def emptyState : ManagerState where
  open_archives := []
  objects := []
  next := 0
  bookmarks := []
  base_resource_archive := none
  base_resource := -1
  base_resource_paths := []
  recent_files := []
  muted := false
  events := []

/-- MARKER-DEFS (further concrete instances are inserted above this line) -/
def markerDefsEnd : Unit := ()

/-- Oracle for the C6 scenarios: archive 7 (the base resource archive) owns
entry 42, archive 1 owns entry 41, lookups are coherent with ownership. -/
def envC6w : Env :=
  { baseEnv with
      entryLookup := fun h _ =>
        if h = 7 then some 42 else if h = 1 then some 41 else none,
      entryParent := fun e =>
        if e = 42 then some 7 else if e = 41 then some 1 else none }

/-- State for the C6 witness: one open archive (handle 1) with resource flag
false, base resource archive loaded as handle 7. -/
def sC6w : ManagerState :=
  { emptyState with
      open_archives := [⟨1, false, []⟩],
      base_resource_archive := some 7 }

/-- Oracle for the C3 scenarios: every path exists as a file, every file is
a loadable wad, auto-mount disabled. -/
def envC3 : Env :=
  { baseEnv with
      fileExists := fun _ => true,
      detectFile := fun _ => some "wad",
      openFileOk := fun _ => true }

/-! ### Shrinking, and the cascading-close specification bundle (for C1) -/

/-- One registry record shrunk: same archive handle, child list a sublist of
the original (the close procedure only clears or erases children). -/
def RecShrink (r r' : OpenArchive) : Prop :=
  r'.archive = r.archive ∧ List.Sublist r'.open_children r.open_children

/-- `ShrinkL l m`: `m` is obtained from `l` by dropping whole records and
shrinking the child lists of the kept ones, preserving order — the net
effect on `open_archives_` of any part of the cascading close. -/
def ShrinkL (l m : List OpenArchive) : Prop :=
  ∃ l2, List.Sublist l2 l ∧ List.Forall₂ RecShrink l2 m

/-- The specification bundle of `closeArchiveFuel` at a given fuel, on
well-formed registries with enough fuel (`length ≤ f + idx`): the call
succeeds; the object store is untouched; each record before the closed
position is the original with the closed archive detached (`eAc`); the
registry shrinks; the closed archive's record is gone; once an archive's
record is gone every archive it listed as a child is gone too; recorded
edges survive unless an endpoint's record was removed; and no surviving
record lists the closed archive. -/
def CloseSpec (env : Env) (f : Nat) : Prop :=
  ∀ idx s r, WFr env s.objects s.open_archives →
    s.open_archives[idx]? = some r →
    s.open_archives.length ≤ f + idx →
    (closeArchiveFuel env f idx s).1 = true ∧
    (closeArchiveFuel env f idx s).2.objects = s.objects ∧
    (∀ j, j < idx → (closeArchiveFuel env f idx s).2.open_archives[j]?
        = (s.open_archives[j]?).map (eAc r.archive)) ∧
    ShrinkL s.open_archives (closeArchiveFuel env f idx s).2.open_archives ∧
    r.archive ∉ handles (closeArchiveFuel env f idx s).2.open_archives ∧
    (∀ u v, Edge s.open_archives u v →
      u ∉ handles (closeArchiveFuel env f idx s).2.open_archives →
      v ∉ handles (closeArchiveFuel env f idx s).2.open_archives) ∧
    (∀ u v, Edge s.open_archives u v →
      Edge (closeArchiveFuel env f idx s).2.open_archives u v ∨
      u ∉ handles (closeArchiveFuel env f idx s).2.open_archives ∨
      v ∉ handles (closeArchiveFuel env f idx s).2.open_archives) ∧
    (∀ r2 ∈ (closeArchiveFuel env f idx s).2.open_archives,
      r.archive ∉ r2.open_children)

/-- Oracle for the C1 witness: entry 11 belongs to archive 0, entry 12 to
archive 1 (the back-references of the two nested child archives). -/
def envC1w : Env :=
  { baseEnv with entryParent := fun e =>
      if e = 11 then some 0 else if e = 12 then some 1 else none }

/-- State for the C1 witness: archive 0 has open child 1, which has open
child 2 (a two-deep chain of nested archives). -/
def sC1w : ManagerState :=
  { emptyState with
      open_archives := [⟨0, true, [1]⟩, ⟨1, true, [2]⟩, ⟨2, true, []⟩],
      objects := [(0, ⟨"p.wad", "wad", none⟩), (1, ⟨"c1.wad", "wad", some 11⟩),
                  (2, ⟨"c2.wad", "wad", some 12⟩)],
      next := 3 }

/-! ## Basic lemmas about the state helpers -/

@[simp] theorem announceE_open_archives (s : ManagerState) (n : String) :
    (announceE s n).open_archives = s.open_archives := by
  unfold announceE; split <;> rfl

@[simp] theorem announceE_objects (s : ManagerState) (n : String) :
    (announceE s n).objects = s.objects := by
  unfold announceE; split <;> rfl

@[simp] theorem announceE_next (s : ManagerState) (n : String) :
    (announceE s n).next = s.next := by
  unfold announceE; split <;> rfl

@[simp] theorem announceE_bookmarks (s : ManagerState) (n : String) :
    (announceE s n).bookmarks = s.bookmarks := by
  unfold announceE; split <;> rfl

@[simp] theorem announceE_base_resource_archive (s : ManagerState) (n : String) :
    (announceE s n).base_resource_archive = s.base_resource_archive := by
  unfold announceE; split <;> rfl

@[simp] theorem announceE_base_resource (s : ManagerState) (n : String) :
    (announceE s n).base_resource = s.base_resource := by
  unfold announceE; split <;> rfl

@[simp] theorem announceE_base_resource_paths (s : ManagerState) (n : String) :
    (announceE s n).base_resource_paths = s.base_resource_paths := by
  unfold announceE; split <;> rfl

@[simp] theorem announceE_recent_files (s : ManagerState) (n : String) :
    (announceE s n).recent_files = s.recent_files := by
  unfold announceE; split <;> rfl

@[simp] theorem announceE_muted (s : ManagerState) (n : String) :
    (announceE s n).muted = s.muted := by
  unfold announceE; split <;> rfl

theorem announceE_events (s : ManagerState) (n : String) (h : s.muted = false) :
    (announceE s n).events = s.events ++ [n] := by
  unfold announceE; rw [h]; rfl

/-! ## C10: addRecentFile on a nonexistent path is a complete no-op -/

/-- C10: for every path that exists neither as a file nor as a directory,
`addRecentFile` leaves the manager state — recent-file list and notification
trace included — completely unchanged. -/
theorem addRecentFile_nonexistent_noop (env : Env) (path : String) (s : ManagerState)
    (hf : env.fileExists path = false) (hd : env.dirExists path = false) :
    addRecentFile env path s = s := by
  unfold addRecentFile
  rw [hf, hd]
  rfl

/-- Witness for `addRecentFile_nonexistent_noop` at a concrete input. -/
theorem addRecentFile_nonexistent_noop_witness :
    addRecentFile baseEnv "missing.wad" emptyState = emptyState :=
  addRecentFile_nonexistent_noop baseEnv "missing.wad" emptyState rfl rfl

/-! ## C8: recent-file list invariants -/

/-- The recent-file list produced by `addRecentFile`, by cases. -/
theorem addRecentFile_recent_files_eq (env : Env) (path : String) (s : ManagerState) :
    (addRecentFile env path s).recent_files =
      if (env.fileExists path || env.dirExists path) = true then
        if normalizePath path ∈ s.recent_files then
          normalizePath path :: s.recent_files.erase (normalizePath path)
        else (normalizePath path :: s.recent_files).take env.max_recent_files
      else s.recent_files := by
  unfold addRecentFile
  split
  · split
    · simp_all
    · simp_all
  · rfl

/-- C8: `addRecentFile` preserves freedom from duplicates and the configured
length bound, and touching a path already present (after the backslash
normalization the list itself uses) moves it to the front without changing
the length.  The disk-existence guard is the one the code itself applies
before touching the list (see C10). -/
theorem addRecentFile_invariants (env : Env) (path : String) (s : ManagerState) :
    (s.recent_files.Nodup → (addRecentFile env path s).recent_files.Nodup) ∧
    (s.recent_files.length ≤ env.max_recent_files →
      (addRecentFile env path s).recent_files.length ≤ env.max_recent_files) ∧
    ((env.fileExists path || env.dirExists path) = true →
      normalizePath path ∈ s.recent_files →
      (addRecentFile env path s).recent_files
          = normalizePath path :: s.recent_files.erase (normalizePath path) ∧
      (addRecentFile env path s).recent_files.length = s.recent_files.length) := by
  rw [addRecentFile_recent_files_eq] at *
  by_cases hex : (env.fileExists path || env.dirExists path) = true
  · rw [if_pos hex]
    by_cases hmem : normalizePath path ∈ s.recent_files
    · rw [if_pos hmem]
      have h1 : 1 ≤ s.recent_files.length :=
        List.length_pos.mpr (List.ne_nil_of_mem hmem)
      have hlen : (normalizePath path :: s.recent_files.erase (normalizePath path)).length
          = s.recent_files.length := by
        simp only [List.length_cons, List.length_erase_of_mem hmem]
        omega
      refine ⟨fun hnd => ?_, fun hb => ?_, fun _ _ => ⟨rfl, hlen⟩⟩
      · exact List.Nodup.cons
          (fun hc => ((hnd.mem_erase_iff).mp hc).1 rfl) (hnd.erase _)
      · omega
    · rw [if_neg hmem]
      refine ⟨fun hnd => ?_, fun _ => ?_, fun _ hmem2 => absurd hmem2 hmem⟩
      · exact (List.nodup_cons.mpr ⟨hmem, hnd⟩).sublist (List.take_sublist _ _)
      · simp [Nat.min_le_left]
  · rw [if_neg hex]
    exact ⟨fun hnd => hnd, fun hlen => hlen, fun hex2 => absurd hex2 hex⟩

/-- Witness for `addRecentFile_invariants`: touching `"b"` in `["a","b"]`
moves it to the front and keeps the length at 2. -/
theorem addRecentFile_invariants_witness :
    (addRecentFile { baseEnv with fileExists := fun _ => true } "b"
        { emptyState with recent_files := ["a", "b"] }).recent_files = ["b", "a"] ∧
    (addRecentFile { baseEnv with fileExists := fun _ => true } "b"
        { emptyState with recent_files := ["a", "b"] }).recent_files.length = 2 := by
  have h := addRecentFile_invariants { baseEnv with fileExists := fun _ => true } "b"
    { emptyState with recent_files := ["a", "b"] }
  have h3 := h.2.2 (by decide) (by decide)
  refine ⟨?_, by rw [h3.2]; rfl⟩
  rw [h3.1]
  decide

/-! ## C9: removeBaseResourcePath keeps the active selection consistent -/

theorem getElem?_eraseIdx_of_le {α : Type} (l : List α) (i j : Nat) (h : i ≤ j) :
    (l.eraseIdx i)[j]? = l[j + 1]? := by
  induction l generalizing i j with
  | nil => simp [List.eraseIdx]
  | cons x xs ih =>
    cases i with
    | zero => simp [List.eraseIdx]
    | succ i =>
      cases j with
      | zero => omega
      | succ j => simp [List.eraseIdx, ih i j (by omega)]

/-- `openBaseResource(-1)` when a selection index is remembered: unload,
reset the cvar, announce, report failure. -/
theorem openBaseResource_unload (env : Env) (s : ManagerState)
    (h : s.base_resource ≠ -1) :
    openBaseResource env (-1) s
      = (false,
          announceE { s with base_resource_archive := none, base_resource := -1 }
            "base_resource_changed") := by
  unfold openBaseResource
  have hb : (s.base_resource == (-1 : Int)) = false := by
    simp [h]
  rw [hb]
  simp

/-- C9 (part of the claim): `removeBaseResourcePath` removes exactly the
indexed path; if the removed index was the active selection the base archive
is unloaded via `select(-1)`; if the removed index precedes the active
selection the remembered index is decremented and still denotes the same
path string. -/
theorem removeBaseResourcePath_spec (env : Env) (index : Nat) (s : ManagerState)
    (hidx : index < s.base_resource_paths.length) :
    (removeBaseResourcePath env index s).base_resource_paths
        = s.base_resource_paths.eraseIdx index ∧
    (s.base_resource = (index : Int) →
      (removeBaseResourcePath env index s).base_resource_archive = none ∧
      (removeBaseResourcePath env index s).base_resource = -1) ∧
    ((index : Int) < s.base_resource →
      (removeBaseResourcePath env index s).base_resource = s.base_resource - 1 ∧
      (removeBaseResourcePath env index s).base_resource_archive
          = s.base_resource_archive ∧
      (removeBaseResourcePath env index s).base_resource_paths.getD
          (removeBaseResourcePath env index s).base_resource.toNat ""
        = s.base_resource_paths.getD s.base_resource.toNat "") := by
  unfold removeBaseResourcePath
  rw [if_pos hidx]
  by_cases hA : s.base_resource = (index : Int)
  · have hbeq : (s.base_resource == (index : Int)) = true := by simp [hA]
    rw [hbeq]
    simp only [if_true]
    rw [openBaseResource_unload env s (by omega)]
    refine ⟨by simp, fun _ => ⟨by simp, by simp⟩, fun hB => absurd hA (by omega)⟩
  · have hbeq : (s.base_resource == (index : Int)) = false := by simp [hA]
    rw [hbeq]
    simp only [Bool.false_eq_true, if_false]
    by_cases hB : (index : Int) < s.base_resource
    · rw [if_pos hB]
      refine ⟨by simp, fun hA2 => absurd hA2 hA, fun _ => ⟨by simp, by simp, ?_⟩⟩
      simp only [announceE_base_resource_paths, announceE_base_resource]
      have hge : (1 : Int) ≤ s.base_resource := by omega
      have ht : (s.base_resource - 1).toNat + 1 = s.base_resource.toNat := by omega
      rw [List.getD_eq_getElem?_getD, List.getD_eq_getElem?_getD]
      rw [getElem?_eraseIdx_of_le _ index ((s.base_resource - 1).toNat) (by omega)]
      rw [ht]
    · rw [if_neg hB]
      exact ⟨by simp, fun hA2 => absurd hA2 hA, fun hB2 => absurd hB2 hB⟩

/-- Witness for `removeBaseResourcePath_spec`: list `[p0, p1]`, active
selection index 1; removing index 0 leaves the selection at index 0 still
naming `p1`. -/
theorem removeBaseResourcePath_spec_witness :
    (removeBaseResourcePath baseEnv 0
        { emptyState with base_resource_paths := ["p0", "p1"], base_resource := 1
        }).base_resource = 0 ∧
    (removeBaseResourcePath baseEnv 0
        { emptyState with base_resource_paths := ["p0", "p1"], base_resource := 1
        }).base_resource_paths.getD 0 "" = "p1" := by
  have h := removeBaseResourcePath_spec baseEnv 0
    { emptyState with base_resource_paths := ["p0", "p1"], base_resource := 1 }
    (by decide)
  have h3 := h.2.2 (by decide)
  refine ⟨by rw [h3.1]; rfl, ?_⟩
  have h4 := h3.2.2
  rw [h3.1] at h4
  simpa using h4

/-! ## C5: openBaseResource outcome and notification -/

/-- C5 (amended): a non-no-op `openBaseResource` is followed by exactly one
`base_resource_changed` notification — except on the unrecognized-format
path (a valid index whose file is neither a wad nor a zip), which returns
failure without any notification; and every failing call leaves no base
archive loaded. -/
theorem openBaseResource_notification (env : Env) (index : Int) (s : ManagerState)
    (hm : s.muted = false)
    (hnoop : ¬(s.base_resource_archive.isSome = true ∧ s.base_resource = index)) :
    ((openBaseResource env index s).1 = false →
      (openBaseResource env index s).2.base_resource_archive = none) ∧
    (((0 : Int) ≤ index ∧ index < (s.base_resource_paths.length : Int) ∧
        ¬(env.detectFile (s.base_resource_paths.getD index.toNat "") = some "wad" ∨
          env.detectFile (s.base_resource_paths.getD index.toNat "") = some "zip")) →
      (openBaseResource env index s).2.events = s.events ∧
      (openBaseResource env index s).1 = false) ∧
    (¬((0 : Int) ≤ index ∧ index < (s.base_resource_paths.length : Int) ∧
        ¬(env.detectFile (s.base_resource_paths.getD index.toNat "") = some "wad" ∨
          env.detectFile (s.base_resource_paths.getD index.toNat "") = some "zip")) →
      (openBaseResource env index s).2.events = s.events ++ ["base_resource_changed"]) := by
  unfold openBaseResource
  have hc : ¬((s.base_resource_archive.isSome && s.base_resource == index) = true) := by
    simpa using hnoop
  rw [if_neg hc]
  by_cases hv : ((index < 0 || (s.base_resource_paths.length : Int) ≤ index) = true)
  · simp only [if_pos hv]
    have hnv : ¬((0 : Int) ≤ index ∧ index < (s.base_resource_paths.length : Int) ∧ True) := by
      simp only [decide_eq_true_eq, Bool.or_eq_true] at hv
      omega
    refine ⟨fun _ => by simp, fun hd => absurd ⟨hd.1, hd.2.1, trivial⟩ hnv,
      fun _ => ?_⟩
    rw [announceE_events _ _ (by simp [hm])]
  · rw [if_neg hv]
    simp only [decide_eq_true_eq, Bool.or_eq_true, not_or, not_le, not_lt] at hv
    by_cases hfmt : ((env.detectFile (s.base_resource_paths.getD index.toNat "") == some "wad"
        || env.detectFile (s.base_resource_paths.getD index.toNat "") == some "zip") = true)
    · rw [if_pos hfmt]
      simp only [Bool.or_eq_true, beq_iff_eq] at hfmt
      by_cases hopen : (env.openFileOk (s.base_resource_paths.getD index.toNat "") = true)
      · rw [if_pos hopen]
        refine ⟨fun hfail => by simp at hfail, fun hd => absurd hfmt hd.2.2, fun _ => ?_⟩
        unfold allocObject
        rw [announceE_events _ _ (by simp [hm])]
      · rw [if_neg hopen]
        refine ⟨fun _ => by simp, fun hd => absurd hfmt hd.2.2, fun _ => ?_⟩
        rw [announceE_events _ _ (by simp [hm])]
    · rw [if_neg hfmt]
      simp only [Bool.or_eq_true, beq_iff_eq, not_or] at hfmt
      have hd : (0 : Int) ≤ index ∧ index < (s.base_resource_paths.length : Int) ∧
          ¬(env.detectFile (s.base_resource_paths.getD index.toNat "") = some "wad" ∨
            env.detectFile (s.base_resource_paths.getD index.toNat "") = some "zip") := by
        refine ⟨by omega, by omega, ?_⟩
        rintro (h1 | h2)
        · exact hfmt.1 h1
        · exact hfmt.2 h2
      exact ⟨fun _ => by simp, fun _ => ⟨by simp, by simp⟩, fun hnd => absurd hd hnd⟩

/-- Counterexample to C5 as stated: a non-no-op `openBaseResource` call whose
path matches neither permitted base-resource format emits no notification at
all (and leaves the remembered index untouched). -/
theorem openBaseResource_detect_fail_silent :
    ¬(((emptyState : ManagerState).base_resource_archive.isSome = true) ∧
        (emptyState : ManagerState).base_resource = 0) ∧
    (openBaseResource { baseEnv with fileExists := fun _ => true } 0
        { emptyState with base_resource_paths := ["notawad.bin"] }).1 = false ∧
    (openBaseResource { baseEnv with fileExists := fun _ => true } 0
        { emptyState with base_resource_paths := ["notawad.bin"] }).2.events = [] := by
  refine ⟨by decide, ?_, ?_⟩ <;> rfl

/-- Witness for `openBaseResource_notification`: selecting index 0 of
`["x.wad"]` (recognized and loadable) emits exactly one
`base_resource_changed`. -/
theorem openBaseResource_notification_witness :
    (openBaseResource
        { baseEnv with detectFile := fun _ => some "wad", openFileOk := fun _ => true } 0
        { emptyState with base_resource_paths := ["x.wad"] }).2.events
      = ["base_resource_changed"] := by
  have h := openBaseResource_notification
    { baseEnv with detectFile := fun _ => some "wad", openFileOk := fun _ => true } 0
    { emptyState with base_resource_paths := ["x.wad"] } rfl (by simp [emptyState])
  have h3 := h.2.2 (by simp)
  rw [h3]
  rfl

/-! ## C7: bulk bookmark removal notifications -/

theorem length_filter_eq_iff {α : Type} (l : List α) (p : α → Bool) :
    (l.filter p).length = l.length ↔ ∀ a ∈ l, p a = true := by
  constructor
  · intro hlen
    exact List.filter_eq_self.mp ((List.filter_sublist l).eq_of_length hlen)
  · intro hall
    rw [List.filter_eq_self.mpr hall]

theorem deleteBookmark_pos (entry : Nat) (s : ManagerState)
    (h : entry ∈ s.bookmarks) :
    deleteBookmark entry s
      = (true, announceE { s with bookmarks := s.bookmarks.erase entry }
          "bookmarks_changed") := by
  unfold deleteBookmark
  rw [if_pos h]

theorem deleteBookmark_neg (entry : Nat) (s : ManagerState)
    (h : entry ∉ s.bookmarks) :
    deleteBookmark entry s = (false, s) := by
  unfold deleteBookmark
  rw [if_neg h]

/-- C7 (amended): `deleteBookmarksInArchive` announces `bookmarks_changed`
exactly once iff at least one bookmark was removed; `deleteBookmarksInDir`
announces exactly once when bookmarks were removed but the directory's own
entry was not bookmarked, **twice** when the directory's own entry was
bookmarked (the nested single-entry `deleteBookmark` call announces on its
own before the final bulk announcement), and not at all when nothing was
removed. -/
theorem bookmarks_bulk_notifications (env : Env) (archive node fuel : Nat)
    (s : ManagerState) (hm : s.muted = false) :
    ((deleteBookmarksInArchive env archive s).2.events
        = s.events ++ (if (deleteBookmarksInArchive env archive s).1 = true
            then ["bookmarks_changed"] else [])) ∧
    ((deleteBookmarksInArchive env archive s).1 = true ↔
        ∃ e ∈ s.bookmarks, env.entryParent e = some archive) ∧
    ((deleteBookmarksInDir env fuel node s).2.events
        = s.events
          ++ (if env.dirEntry node ∈ s.bookmarks then ["bookmarks_changed"] else [])
          ++ (if env.dirEntry node ∈ s.bookmarks ∨
                ∃ e ∈ s.bookmarks.erase (env.dirEntry node),
                  env.entryParent e = some (env.nodeArchive node) ∧
                  walkHits env fuel (env.rootDir (env.nodeArchive node)) node
                    (env.entryParentDir e) = true
              then ["bookmarks_changed"] else [])) := by
  refine ⟨?_, ?_, ?_⟩
  · unfold deleteBookmarksInArchive
    by_cases hk : (s.bookmarks.filter
        (fun e => !(env.entryParent e == some archive))).length = s.bookmarks.length
    · rw [if_pos hk]
      simp
    · rw [if_neg hk]
      simp only [if_pos rfl]
      rw [announceE_events _ _ (by simp [hm])]
      simp
  · unfold deleteBookmarksInArchive
    by_cases hk : (s.bookmarks.filter
        (fun e => !(env.entryParent e == some archive))).length = s.bookmarks.length
    · rw [if_pos hk]
      have hall := (length_filter_eq_iff _ _).mp hk
      simp only [Bool.false_eq_true, false_iff]
      rintro ⟨e, he, hpe⟩
      have := hall e he
      simp [hpe] at this
    · rw [if_neg hk]
      simp only [true_iff]
      by_contra hne
      push_neg at hne
      refine hk ((length_filter_eq_iff _ _).mpr (fun e he => ?_))
      simp only [Bool.not_eq_true', beq_eq_false_iff_ne, ne_eq]
      exact hne e he
  · unfold deleteBookmarksInDir
    by_cases hd : env.dirEntry node ∈ s.bookmarks
    · rw [deleteBookmark_pos _ _ hd, if_pos hd, if_pos (Or.inl hd)]
      dsimp only
      split
      · rw [announceE_events _ _ (by simp [hm])]
        rw [announceE_events _ _ (by simp [hm])]
      all_goals rename_i hcond; simp at hcond
    · rw [deleteBookmark_neg _ _ hd, if_neg hd, List.erase_of_not_mem hd]
      by_cases hk : (s.bookmarks.filter (fun e =>
          !(env.entryParent e == some (env.nodeArchive node) &&
            walkHits env fuel (env.rootDir (env.nodeArchive node)) node
              (env.entryParentDir e)))).length = s.bookmarks.length
      · have hall := (length_filter_eq_iff _ _).mp hk
        have hnr : ¬(env.dirEntry node ∈ s.bookmarks ∨
            ∃ e ∈ s.bookmarks,
              env.entryParent e = some (env.nodeArchive node) ∧
              walkHits env fuel (env.rootDir (env.nodeArchive node)) node
                (env.entryParentDir e) = true) := by
          rintro (hmem | ⟨e, he, hpe, hw⟩)
          · exact hd hmem
          · have := hall e he
            simp [hpe, hw] at this
        rw [if_neg hnr]
        dsimp only
        split
        · rename_i hcond
          exfalso
          simp only [Bool.false_or, Bool.not_eq_eq_eq_not, Bool.not_true,
            decide_eq_false_iff_not] at hcond
          exact hcond hk
        · simp
      · have hr : env.dirEntry node ∈ s.bookmarks ∨
            ∃ e ∈ s.bookmarks,
              env.entryParent e = some (env.nodeArchive node) ∧
              walkHits env fuel (env.rootDir (env.nodeArchive node)) node
                (env.entryParentDir e) = true := by
          refine Or.inr ?_
          by_contra hne
          push_neg at hne
          refine hk ((length_filter_eq_iff _ _).mpr (fun e he => ?_))
          have hthis := hne e he
          simp only [Bool.not_eq_true', Bool.and_eq_false_iff, beq_eq_false_iff_ne, ne_eq]
          by_cases hpe : env.entryParent e = some (env.nodeArchive node)
          · exact Or.inr (by simpa using hthis hpe)
          · exact Or.inl hpe
        rw [if_pos hr]
        dsimp only
        split
        · rw [announceE_events _ _ (by simp [hm])]
          simp
        · rename_i hcond
          exfalso
          apply hk
          by_contra hk2
          apply hcond
          rw [Bool.false_or, decide_eq_false hk2]
          rfl

/-- Counterexample to C7 as stated: removing the bookmarks under a directory
whose own entry is bookmarked removes one bookmark but fires **two**
`bookmarks_changed` notifications, not one. -/
theorem deleteBookmarksInDir_double_notification :
    ((deleteBookmarksInDir { baseEnv with dirEntry := fun _ => 10 } 1 0
        { emptyState with bookmarks := [10] }).2.bookmarks.length = 0) ∧
    ((deleteBookmarksInDir { baseEnv with dirEntry := fun _ => 10 } 1 0
        { emptyState with bookmarks := [10] }).2.events.count "bookmarks_changed"
      = 2) := by
  exact ⟨rfl, rfl⟩

/-- Witness for `bookmarks_bulk_notifications`: deleting the bookmarks of
archive 3 from bookmark list `[5]` (entry 5 belongs to archive 3) removes it
and fires exactly one notification. -/
theorem bookmarks_bulk_notifications_witness :
    (deleteBookmarksInArchive
        { baseEnv with entryParent := fun e => if e = 5 then some 3 else none } 3
        { emptyState with bookmarks := [5] }).2.events = ["bookmarks_changed"] ∧
    (deleteBookmarksInArchive
        { baseEnv with entryParent := fun e => if e = 5 then some 3 else none } 3
        { emptyState with bookmarks := [5] }).1 = true := by
  have h := bookmarks_bulk_notifications
    { baseEnv with entryParent := fun e => if e = 5 then some 3 else none } 3 0 0
    { emptyState with bookmarks := [5] } rfl
  have hb : (deleteBookmarksInArchive
      { baseEnv with entryParent := fun e => if e = 5 then some 3 else none } 3
      { emptyState with bookmarks := [5] }).1 = true :=
    h.2.1.mpr ⟨5, by decide, by decide⟩
  refine ⟨?_, hb⟩
  rw [h.1, hb]
  rfl

/-! ## C2: the two resolver search orders -/

theorem findSome?_mem_source {α β : Type} (l : List α) (f : α → Option β) (b : β)
    (h : l.findSome? f = some b) : ∃ a ∈ l, f a = some b := by
  induction l with
  | nil => simp at h
  | cons x xs ih =>
    rw [List.findSome?_cons] at h
    cases hx : f x with
    | some v =>
      rw [hx] at h
      exact ⟨x, List.mem_cons_self x xs, hx.trans h⟩
    | none =>
      rw [hx] at h
      obtain ⟨a, ha, hfa⟩ := ih h
      exact ⟨a, List.mem_cons_of_mem x ha, hfa⟩

theorem searchOpenFirst_eq (env : Env) (name : String) (ignore : Option Nat)
    (l : List OpenArchive) :
    searchOpenFirst env name ignore l
      = (eligibleArchives ignore l).findSome?
          (fun r => env.entryLookup r.archive name) := by
  induction l with
  | nil => rfl
  | cons r rs ih =>
    unfold searchOpenFirst
    unfold eligibleArchives at ih ⊢
    by_cases hres : r.resource = true
    · rw [if_neg (by simp [hres])]
      by_cases hig : (ignore == some r.archive) = true
      · rw [if_pos hig, List.filter_cons_of_neg (by simp [hig])]
        exact ih
      · rw [if_neg hig, List.filter_cons_of_pos (by simp [hres, hig]),
          List.findSome?_cons]
        cases hl : env.entryLookup r.archive name with
        | some e => rfl
        | none => exact ih
    · have hres2 : r.resource = false := by revert hres; cases r.resource <;> simp
      rw [if_pos (by simp [hres2]), List.filter_cons_of_neg (by simp [hres2])]
      exact ih

theorem searchOpenLast_eq (env : Env) (options : Nat) (ignore : Option Nat)
    (l : List OpenArchive) :
    searchOpenLast env options ignore l
      = (eligibleArchives ignore l).findSome?
          (fun r => env.findLast r.archive options) := by
  induction l with
  | nil => rfl
  | cons r rs ih =>
    unfold searchOpenLast
    unfold eligibleArchives at ih ⊢
    by_cases hres : r.resource = true
    · rw [if_neg (by simp [hres])]
      by_cases hig : (ignore == some r.archive) = true
      · rw [if_pos hig, List.filter_cons_of_neg (by simp [hig])]
        exact ih
      · rw [if_neg hig, List.filter_cons_of_pos (by simp [hres, hig]),
          List.findSome?_cons]
        cases hl : env.findLast r.archive options with
        | some e => rfl
        | none => exact ih
    · have hres2 : r.resource = false := by revert hres; cases r.resource <;> simp
      rw [if_pos (by simp [hres2]), List.filter_cons_of_neg (by simp [hres2])]
      exact ih

theorem findAllLoop_eq (env : Env) (options : Nat) (ignore : Option Nat)
    (l : List OpenArchive) (acc : List Nat) :
    l.foldl (fun acc r =>
        if !r.resource then acc
        else if ignore == some r.archive then acc
        else acc ++ env.findAll r.archive options) acc
      = acc ++ ((eligibleArchives ignore l).map
          (fun r => env.findAll r.archive options)).flatten := by
  induction l generalizing acc with
  | nil => simp [eligibleArchives]
  | cons r rs ih =>
    rw [List.foldl_cons]
    unfold eligibleArchives at ih ⊢
    by_cases hres : r.resource = true
    · by_cases hig : (ignore == some r.archive) = true
      · rw [if_neg (by simp [hres]), if_pos hig,
          List.filter_cons_of_neg (by simp [hig])]
        exact ih acc
      · rw [if_neg (by simp [hres]), if_neg hig,
          List.filter_cons_of_pos (by simp [hres, hig])]
        rw [ih (acc ++ env.findAll r.archive options)]
        simp [List.append_assoc]
    · have hres2 : r.resource = false := by revert hres; cases r.resource <;> simp
      rw [if_pos (by simp [hres2]), List.filter_cons_of_neg (by simp [hres2])]
      exact ih acc

/-- C2: the two lookup orders differ.  `getResourceEntry`/`findResourceEntry`
search the eligible open archives in registration order and consult the base
resource archive only when every open archive failed to match, whereas
`findAllResourceEntries` places every base-archive match in front of all
open-archive matches. -/
theorem resolver_search_orders (env : Env) (s : ManagerState) (name : String)
    (options : Nat) (ignore : Option Nat) :
    (getResourceEntry env s name ignore
        = match (eligibleArchives ignore s.open_archives).findSome?
              (fun r => env.entryLookup r.archive name) with
          | some e => some e
          | none => baseEntryLookup env s name) ∧
    (findResourceEntry env s options ignore
        = match (eligibleArchives ignore s.open_archives).findSome?
              (fun r => env.findLast r.archive options) with
          | some e => some e
          | none => baseFindLast env s options) ∧
    (findAllResourceEntries env s options ignore
        = baseFindAll env s options
          ++ ((eligibleArchives ignore s.open_archives).map
              (fun r => env.findAll r.archive options)).flatten) := by
  refine ⟨?_, ?_, ?_⟩
  · unfold getResourceEntry baseEntryLookup
    rw [searchOpenFirst_eq]
  · unfold findResourceEntry baseFindLast
    rw [searchOpenLast_eq]
  · unfold findAllResourceEntries baseFindAll
    rw [findAllLoop_eq]

/-! ## C6: what findFirst can return -/

theorem archive_inj_of_nodup (l : List OpenArchive)
    (hnd : (handles l).Nodup) {r1 r2 : OpenArchive} (h1 : r1 ∈ l) (h2 : r2 ∈ l)
    (he : r1.archive = r2.archive) : r1 = r2 :=
  List.inj_on_of_nodup_map hnd h1 h2 he

/-- C6 (amended): `getResourceEntry` and `findResourceEntry` never return an
entry belonging to a **registry** archive whose resource flag is false or
whose handle equals the excluding argument; the base resource archive,
however, is searched without applying the excluding filter (see the
counterexample), so a base-archive entry may be returned even when the base
archive itself is the excluding argument. -/
theorem findFirst_respects_registry_exclusions
    (env : Env) (s : ManagerState) (name : String) (options : Nat)
    (ignore : Option Nat) (e : Nat)
    (hlookup : ∀ h n e2, env.entryLookup h n = some e2 → env.entryParent e2 = some h)
    (hfind : ∀ h q e2, env.findLast h q = some e2 → env.entryParent e2 = some h)
    (hnodup : (handles s.open_archives).Nodup)
    (hbase : ∀ b, s.base_resource_archive = some b → b ∉ handles s.open_archives) :
    ∀ r ∈ s.open_archives, (r.resource = false ∨ ignore = some r.archive) →
      (getResourceEntry env s name ignore = some e →
        env.entryParent e ≠ some r.archive) ∧
      (findResourceEntry env s options ignore = some e →
        env.entryParent e ≠ some r.archive) := by
  intro r hr hskip
  constructor
  · intro hres hpe
    rw [(resolver_search_orders env s name options ignore).1] at hres
    cases hfs : (eligibleArchives ignore s.open_archives).findSome?
        (fun r2 => env.entryLookup r2.archive name) with
    | some e0 =>
      rw [hfs] at hres
      have he0 : e0 = e := Option.some.inj hres
      subst he0
      obtain ⟨r2, hr2, hl2⟩ := findSome?_mem_source _ _ _ hfs
      obtain ⟨hr2mem, hr2el⟩ := List.mem_filter.mp hr2
      have hpar := hlookup r2.archive name e0 hl2
      have harch : r2.archive = r.archive := Option.some.inj (hpar.symm.trans hpe)
      have hrr : r2 = r := archive_inj_of_nodup _ hnodup hr2mem hr harch
      subst hrr
      rw [Bool.and_eq_true] at hr2el
      rcases hskip with hflag | hig
      · rw [hflag] at hr2el
        exact Bool.noConfusion hr2el.1
      · rw [hig] at hr2el
        simp at hr2el
    | none =>
      rw [hfs] at hres
      have hres2 : baseEntryLookup env s name = some e := hres
      unfold baseEntryLookup at hres2
      cases hb : s.base_resource_archive with
      | none => rw [hb] at hres2; exact Option.noConfusion hres2
      | some b =>
        rw [hb] at hres2
        have hpar := hlookup b name e hres2
        have harch : b = r.archive := Option.some.inj (hpar.symm.trans hpe)
        exact hbase b hb (harch ▸ List.mem_map_of_mem (fun r2 => r2.archive) hr)
  · intro hres hpe
    rw [(resolver_search_orders env s name options ignore).2.1] at hres
    cases hfs : (eligibleArchives ignore s.open_archives).findSome?
        (fun r2 => env.findLast r2.archive options) with
    | some e0 =>
      rw [hfs] at hres
      have he0 : e0 = e := Option.some.inj hres
      subst he0
      obtain ⟨r2, hr2, hl2⟩ := findSome?_mem_source _ _ _ hfs
      obtain ⟨hr2mem, hr2el⟩ := List.mem_filter.mp hr2
      have hpar := hfind r2.archive options e0 hl2
      have harch : r2.archive = r.archive := Option.some.inj (hpar.symm.trans hpe)
      have hrr : r2 = r := archive_inj_of_nodup _ hnodup hr2mem hr harch
      subst hrr
      rw [Bool.and_eq_true] at hr2el
      rcases hskip with hflag | hig
      · rw [hflag] at hr2el
        exact Bool.noConfusion hr2el.1
      · rw [hig] at hr2el
        simp at hr2el
    | none =>
      rw [hfs] at hres
      have hres2 : baseFindLast env s options = some e := hres
      unfold baseFindLast at hres2
      cases hb : s.base_resource_archive with
      | none => rw [hb] at hres2; exact Option.noConfusion hres2
      | some b =>
        rw [hb] at hres2
        have hpar := hfind b options e hres2
        have harch : b = r.archive := Option.some.inj (hpar.symm.trans hpe)
        exact hbase b hb (harch ▸ List.mem_map_of_mem (fun r2 => r2.archive) hr)

/-- Counterexample to C6 as stated: with the loaded base resource archive
itself (handle 7) passed as the excluding argument, `getResourceEntry` still
returns entry 42, which belongs to archive 7 — an entry belonging to an
archive whose handle equals the excluding argument. -/
theorem findFirst_returns_excluded_base :
    getResourceEntry envC6w sC6w "X" (some 7) = some 42 ∧
    envC6w.entryParent 42 = some 7 := by
  constructor
  · rfl
  · rfl

/-- Witness for `findFirst_respects_registry_exclusions` at a concrete
coherent oracle: the returned entry 42 does not belong to the flag-false
registry archive 1. -/
theorem findFirst_respects_registry_exclusions_witness :
    getResourceEntry envC6w sC6w "X" none = some 42 ∧
    envC6w.entryParent 42 ≠ some 1 := by
  refine ⟨rfl, ?_⟩
  have h := findFirst_respects_registry_exclusions envC6w sC6w "X" 0 none 42
    (by
      intro h n e2 heq
      dsimp only [envC6w, baseEnv] at heq ⊢
      split at heq
      · rename_i h7
        subst h7
        cases heq
        rfl
      · split at heq
        · rename_i h1
          subst h1
          cases heq
          rfl
        · exact Option.noConfusion heq)
    (by
      intro h q e2 heq
      dsimp only [envC6w, baseEnv] at heq
      exact Option.noConfusion heq)
    (by decide)
    (by
      intro b hb
      have hb7 : b = 7 := by
        have := Option.some.inj hb.symm
        omega
      subst hb7
      decide)
  exact (h ⟨1, false, []⟩ (by decide) (Or.inl rfl)).1 rfl

/-! ## C4: failing opens and state mutation -/

/-- C4 (amended): a failing `openArchive` — from a file, a directory or an
entry, whether the failure is an unrecognized format or a loader error —
leaves the entire manager state untouched.  A failing `openBaseResource`,
by contrast, may already have unloaded the previously loaded base archive;
its failure guarantee is only the documented terminal state "no base
archive loaded". -/
theorem open_failure_no_mutation (env : Env) (fuel : Nat) (filename : String)
    (entry : Nat) (manage silent : Bool) (s : ManagerState) (index : Int) :
    ((openArchiveFile env fuel filename manage silent s).1 = none →
      (openArchiveFile env fuel filename manage silent s).2 = s) ∧
    ((openDirArchive env fuel filename manage silent s).1 = none →
      (openDirArchive env fuel filename manage silent s).2 = s) ∧
    ((openArchiveEntry env fuel entry manage silent s).1 = none →
      (openArchiveEntry env fuel entry manage silent s).2 = s) ∧
    ((openBaseResource env index s).1 = false →
      (openBaseResource env index s).2.base_resource_archive = none) := by
  have hdir : (openDirArchive env fuel filename manage silent s).1 = none →
      (openDirArchive env fuel filename manage silent s).2 = s := by
    intro hfail
    unfold openDirArchive at hfail ⊢
    cases hfind : getArchiveByFilename s filename with
    | some h => rw [hfind] at hfail; simp at hfail
    | none =>
      rw [hfind] at hfail
      dsimp only at hfail ⊢
      by_cases hok : env.openDirOk filename = true
      · rw [if_pos hok] at hfail
        exfalso
        revert hfail
        unfold allocObject
        cases manage <;> simp
      · rw [if_neg hok]
  refine ⟨?_, hdir, ?_, ?_⟩
  · intro hfail
    unfold openArchiveFile at hfail ⊢
    by_cases hd : (!env.fileExists filename && env.dirExists filename) = true
    · rw [if_pos hd] at hfail ⊢
      exact hdir hfail
    · rw [if_neg hd] at hfail ⊢
      cases hfind : getArchiveByFilename s filename with
      | some h => rw [hfind] at hfail; simp at hfail
      | none =>
        rw [hfind] at hfail
        dsimp only at hfail ⊢
        cases hdet : env.detectFile filename with
        | none => rfl
        | some fmt =>
          rw [hdet] at hfail
          dsimp only at hfail ⊢
          by_cases hok : env.openFileOk filename = true
          · rw [if_pos hok] at hfail
            exfalso
            revert hfail
            unfold allocObject
            cases manage <;> simp
          · rw [if_neg hok]
  · intro hfail
    unfold openArchiveEntry at hfail ⊢
    cases hfind : s.open_archives.find?
        (fun r => parentEntryOf s.objects r.archive == some entry) with
    | some r => rw [hfind] at hfail; simp at hfail
    | none =>
      rw [hfind] at hfail
      dsimp only at hfail ⊢
      cases hdet : env.detectEntry entry with
      | none => rfl
      | some fmt =>
        rw [hdet] at hfail
        dsimp only at hfail ⊢
        by_cases hok : env.openEntryOk entry = true
        · rw [if_pos hok] at hfail
          exfalso
          revert hfail
          unfold allocObject
          cases manage <;> simp
        · rw [if_neg hok]
  · intro hfail
    unfold openBaseResource at hfail ⊢
    by_cases hnoop : (s.base_resource_archive.isSome && s.base_resource == index) = true
    · rw [if_pos hnoop] at hfail
      simp at hfail
    · rw [if_neg hnoop] at hfail ⊢
      dsimp only at hfail ⊢
      by_cases hv : ((index < 0 || (s.base_resource_paths.length : Int) ≤ index) = true)
      · rw [if_pos hv]
        simp
      · rw [if_neg hv] at hfail ⊢
        by_cases hfmt : ((env.detectFile (s.base_resource_paths.getD index.toNat "")
            == some "wad" ||
            env.detectFile (s.base_resource_paths.getD index.toNat "")
            == some "zip") = true)
        · rw [if_pos hfmt] at hfail ⊢
          by_cases hok : (env.openFileOk (s.base_resource_paths.getD index.toNat "") = true)
          · rw [if_pos hok] at hfail
            exfalso
            revert hfail
            unfold allocObject
            simp
          · rw [if_neg hok]
            simp
        · rw [if_neg hfmt]

/-- Counterexample to C4 as stated: `openBaseResource` with an out-of-range
index fails, yet has already mutated the state before detecting the failure
(the previously loaded base archive is unloaded, the remembered index is
reset, a notification fires). -/
theorem openBaseResource_fails_after_mutation :
    (openBaseResource baseEnv 99
        { emptyState with base_resource_archive := some 5, base_resource := 0,
                          base_resource_paths := ["p"] }).1 = false ∧
    (openBaseResource baseEnv 99
        { emptyState with base_resource_archive := some 5, base_resource := 0,
                          base_resource_paths := ["p"] }).2
      ≠ { emptyState with base_resource_archive := some 5, base_resource := 0,
                          base_resource_paths := ["p"] } := by
  refine ⟨rfl, ?_⟩
  intro h
  have h2 := congrArg ManagerState.base_resource_archive h
  revert h2
  decide

/-- Witness for `open_failure_no_mutation`: a failing file open (no detector
matches) changes nothing, and a failing base-resource select leaves no base
archive loaded. -/
theorem open_failure_no_mutation_witness :
    (openArchiveFile baseEnv 1 "x" true false emptyState).2 = emptyState ∧
    (openBaseResource baseEnv 0 emptyState).2.base_resource_archive = none := by
  have h := open_failure_no_mutation baseEnv 1 "x" 0 true false emptyState 0
  exact ⟨h.1 rfl, h.2.2.2 rfl⟩

/-! ## C3: opening the same filename twice -/

theorem countEvt_update (s : ManagerState) (oa : List OpenArchive)
    (objs : List (Nat × ArchiveInfo)) (nx : Nat) (n : String) :
    countEvt { s with open_archives := oa, objects := objs, next := nx } n
      = countEvt s n := rfl

theorem countEvt_announce_self (s : ManagerState) (n : String) (hm : s.muted = false) :
    countEvt (announceE s n) n = countEvt s n + 1 := by
  unfold countEvt announceE
  rw [hm]
  simp

theorem countEvt_announce_ne (s : ManagerState) (n m : String) (hne : n ≠ m) :
    countEvt (announceE s n) m = countEvt s m := by
  unfold countEvt announceE
  split
  · rfl
  · rw [List.count_append]
    rw [show List.count m [n] = 0 from
      List.count_eq_zero_of_not_mem
        (by simp only [List.mem_singleton]; exact fun hh => hne hh.symm)]
    omega

theorem addRecentFile_open_archives (env : Env) (p : String) (s : ManagerState) :
    (addRecentFile env p s).open_archives = s.open_archives := by
  unfold addRecentFile
  split
  · dsimp only
    split <;> simp
  · rfl

theorem addRecentFile_objects (env : Env) (p : String) (s : ManagerState) :
    (addRecentFile env p s).objects = s.objects := by
  unfold addRecentFile
  split
  · dsimp only
    split <;> simp
  · rfl

theorem addRecentFile_muted (env : Env) (p : String) (s : ManagerState) :
    (addRecentFile env p s).muted = s.muted := by
  unfold addRecentFile
  split
  · dsimp only
    split <;> simp
  · rfl

theorem addRecentFile_next (env : Env) (p : String) (s : ManagerState) :
    (addRecentFile env p s).next = s.next := by
  unfold addRecentFile
  split
  · dsimp only
    split <;> simp
  · rfl

theorem addRecentFile_countEvt_added (env : Env) (p : String) (s : ManagerState) :
    countEvt (addRecentFile env p s) "archive_added"
      = countEvt s "archive_added" := by
  unfold addRecentFile
  split
  · dsimp only
    split
    · rw [countEvt_announce_ne _ _ _ (by decide)]
      rfl
    · rw [countEvt_announce_ne _ _ _ (by decide)]
      rfl
  · rfl

/-- `addArchive` with root auto-mount disabled: append the record, announce. -/
theorem addArchive_no_auto (env : Env) (fuel : Nat) (h : Nat) (s : ManagerState)
    (hauto : env.auto_open_wads_root = false) :
    addArchive env fuel h s
      = announceE { s with open_archives := s.open_archives ++ [⟨h, true, []⟩] }
          "archive_added" := by
  unfold addArchive
  rw [hauto]
  simp

theorem objLookup_append_ne (objs : List (Nat × ArchiveInfo)) (h k : Nat)
    (i : ArchiveInfo) (hne : k ≠ h) :
    objLookup (objs ++ [(h, i)]) k = objLookup objs k := by
  unfold objLookup
  rw [List.find?_append]
  rw [show ([((h, i))].find? fun pr => pr.1 == k) = none from
    List.find?_cons_of_neg _ (by simpa using fun he => hne he.symm)]
  cases objs.find? (fun pr => pr.1 == k) <;> rfl

theorem objLookup_append_self (objs : List (Nat × ArchiveInfo)) (h : Nat)
    (i : ArchiveInfo) (hfresh : ∀ pr ∈ objs, pr.1 ≠ h) :
    objLookup (objs ++ [(h, i)]) h = some i := by
  unfold objLookup
  rw [List.find?_append,
    List.find?_eq_none.mpr (fun pr hpr => by simpa using hfresh pr hpr),
    List.find?_cons_of_pos _ (by simp)]
  rfl

theorem find?_append_none {α : Type} (l1 l2 : List α) (p : α → Bool)
    (h : l1.find? p = none) : (l1 ++ l2).find? p = l2.find? p := by
  induction l1 with
  | nil => rfl
  | cons x xs ih =>
    rw [List.find?] at h
    rw [List.cons_append, List.find?]
    cases hp : (p x) with
    | true => rw [hp] at h; exact Option.noConfusion h
    | false =>
      rw [hp] at h
      exact ih h

/-- After a successful first open of an untracked filename, looking the
filename up again finds exactly the newly added record. -/
theorem getArchiveByFilename_new (s s1 : ManagerState) (F fmtid : String)
    (harch : s1.open_archives = s.open_archives ++ [⟨s.next, true, []⟩])
    (hobjs : s1.objects = s.objects ++ [(s.next, ⟨F, fmtid, none⟩)])
    (hfresh : ∀ pr ∈ s.objects, pr.1 < s.next)
    (hfresh2 : ∀ r ∈ s.open_archives, r.archive < s.next)
    (hnew : getArchiveByFilename s F = none) :
    getArchiveByFilename s1 F = some s.next := by
  unfold getArchiveByFilename at hnew ⊢
  rw [harch]
  have hold : ∀ r ∈ s.open_archives, (filenameOf s1 r.archive == F) = false := by
    intro r hr
    have hne : r.archive ≠ s.next := Nat.ne_of_lt (hfresh2 r hr)
    have : filenameOf s1 r.archive = filenameOf s r.archive := by
      unfold filenameOf
      rw [hobjs, objLookup_append_ne _ _ _ _ hne]
    rw [this]
    have h2 := List.find?_eq_none.mp (by
      cases hf : s.open_archives.find? (fun r2 => filenameOf s r2.archive == F) with
      | none => rfl
      | some r2 => rw [hf] at hnew; exact Option.noConfusion hnew) r hr
    revert h2
    cases (filenameOf s r.archive == F) <;> simp
  have hnone : s.open_archives.find? (fun r => filenameOf s1 r.archive == F) = none :=
    List.find?_eq_none.mpr (fun r hr => by rw [hold r hr]; exact Bool.false_ne_true)
  rw [find?_append_none _ _ _ hnone]
  have hme : filenameOf s1 s.next = F := by
    unfold filenameOf
    rw [hobjs, objLookup_append_self _ _ _
      (fun pr hpr => Nat.ne_of_lt (hfresh pr hpr))]
    rfl
  rw [List.find?_cons_of_pos _ (by simp [hme])]
  rfl

/-- The state after committing a freshly opened managed archive (record
append, `archive_added`, optional `archive_opened`, recent-file touch),
with root auto-mount disabled. -/
theorem commit_state_spec (env : Env) (fuel h0 : Nat) (F : String) (silent : Bool)
    (sa : ManagerState) (hauto : env.auto_open_wads_root = false)
    (hm : sa.muted = false) :
    (addRecentFile env F
        (if silent = true then addArchive env fuel h0 sa
         else announceE (addArchive env fuel h0 sa) "archive_opened")).open_archives
        = sa.open_archives ++ [⟨h0, true, []⟩] ∧
    (addRecentFile env F
        (if silent = true then addArchive env fuel h0 sa
         else announceE (addArchive env fuel h0 sa) "archive_opened")).objects
        = sa.objects ∧
    (addRecentFile env F
        (if silent = true then addArchive env fuel h0 sa
         else announceE (addArchive env fuel h0 sa) "archive_opened")).muted = false ∧
    countEvt (addRecentFile env F
        (if silent = true then addArchive env fuel h0 sa
         else announceE (addArchive env fuel h0 sa) "archive_opened")) "archive_added"
        = countEvt sa "archive_added" + 1 ∧
    (addRecentFile env F
        (if silent = true then addArchive env fuel h0 sa
         else announceE (addArchive env fuel h0 sa) "archive_opened")).next
        = sa.next := by
  rw [addArchive_no_auto env fuel h0 sa hauto]
  have haa : countEvt (announceE
      { sa with open_archives := sa.open_archives ++ [⟨h0, true, []⟩] }
      "archive_added") "archive_added" = countEvt sa "archive_added" + 1 := by
    rw [countEvt_announce_self _ _ (by simp [hm])]
    rfl
  cases silent with
  | true =>
    rw [if_pos rfl]
    refine ⟨?_, ?_, ?_, ?_, ?_⟩
    · rw [addRecentFile_open_archives]; simp
    · rw [addRecentFile_objects]; simp
    · rw [addRecentFile_muted]; simp [hm]
    · rw [addRecentFile_countEvt_added, haa]
    · rw [addRecentFile_next]; simp
  | false =>
    rw [if_neg (by simp)]
    refine ⟨?_, ?_, ?_, ?_, ?_⟩
    · rw [addRecentFile_open_archives]; simp
    · rw [addRecentFile_objects]; simp
    · rw [addRecentFile_muted]; simp [hm]
    · rw [addRecentFile_countEvt_added, countEvt_announce_ne _ _ _ (by decide), haa]
    · rw [addRecentFile_next]; simp

/-- A successful managed first open of an untracked filename: the result is
the fresh handle, exactly one record is appended, one object is allocated,
and exactly one `archive_added` is emitted (auto-mount disabled). -/
theorem openArchiveFile_first_open (env : Env) (fuel : Nat) (F : String)
    (silent : Bool) (s : ManagerState)
    (hauto : env.auto_open_wads_root = false)
    (hm : s.muted = false)
    (hnew : getArchiveByFilename s F = none)
    (hsucc : (openArchiveFile env fuel F true silent s).1.isSome = true) :
    (openArchiveFile env fuel F true silent s).1 = some s.next ∧
    (openArchiveFile env fuel F true silent s).2.open_archives
        = s.open_archives ++ [⟨s.next, true, []⟩] ∧
    (∃ fmtid, (openArchiveFile env fuel F true silent s).2.objects
        = s.objects ++ [(s.next, ⟨F, fmtid, none⟩)]) ∧
    (openArchiveFile env fuel F true silent s).2.muted = false ∧
    countEvt (openArchiveFile env fuel F true silent s).2 "archive_added"
        = countEvt s "archive_added" + 1 := by
  unfold openArchiveFile at hsucc ⊢
  by_cases hd : (!env.fileExists F && env.dirExists F) = true
  · rw [if_pos hd] at hsucc ⊢
    unfold openDirArchive at hsucc ⊢
    rw [hnew] at hsucc ⊢
    dsimp only at hsucc ⊢
    by_cases hok : env.openDirOk F = true
    · rw [if_pos hok, if_pos (rfl : (true : Bool) = true)]
      simp only [allocObject]
      have hc := commit_state_spec env fuel s.next F silent
        { s with next := s.next + 1,
                 objects := s.objects ++ [(s.next, ⟨F, "folder", none⟩)] }
        hauto (by simp [hm])
      refine ⟨by trivial, ?_, ⟨"folder", ?_⟩, ?_, ?_⟩
      · rw [hc.1]
      · rw [hc.2.1]
      · rw [hc.2.2.1]
      · rw [hc.2.2.2.1]
        rfl
    · rw [if_neg hok] at hsucc
      simp at hsucc
  · rw [if_neg hd] at hsucc ⊢
    rw [hnew] at hsucc ⊢
    dsimp only at hsucc ⊢
    cases hdet : env.detectFile F with
    | none =>
      rw [hdet] at hsucc
      simp at hsucc
    | some fmt =>
      rw [hdet] at hsucc
      dsimp only at hsucc ⊢
      by_cases hok : env.openFileOk F = true
      · rw [if_pos hok, if_pos (rfl : (true : Bool) = true)]
        simp only [allocObject]
        have hc := commit_state_spec env fuel s.next F silent
          { s with next := s.next + 1,
                   objects := s.objects ++ [(s.next, ⟨F, fmt, none⟩)] }
          hauto (by simp [hm])
        refine ⟨by trivial, ?_, ⟨fmt, ?_⟩, ?_, ?_⟩
        · rw [hc.1]
        · rw [hc.2.1]
        · rw [hc.2.2.1]
        · rw [hc.2.2.2.1]
          rfl
      · rw [if_neg hok] at hsucc
        simp at hsucc

/-- Opening a filename that `getArchive(filename)` already resolves just
returns the existing handle (announcing `archive_opened` unless silent),
with no other state change — in particular no `archive_added`. -/
theorem openArchiveFile_already_open (env : Env) (fuel : Nat) (F : String)
    (manage silent : Bool) (s : ManagerState) (h : Nat)
    (hfound : getArchiveByFilename s F = some h) :
    openArchiveFile env fuel F manage silent s
      = (some h, if silent = true then s else announceE s "archive_opened") := by
  unfold openArchiveFile openDirArchive
  by_cases hd : (!env.fileExists F && env.dirExists F) = true
  · rw [if_pos hd, hfound]
  · rw [if_neg hd, hfound]

/-- C3 (amended): opening the same filename twice (managed) — "same" in the
exact string sense that `getArchive(filename)` checks — returns the same
handle both times, and, with root auto-mount disabled, exactly one
`archive_added` notification is emitted in total: one by the first open and
none by the second.  (For textually different but normalized-equal paths
the code double-opens, and with auto-mount enabled the first open can emit
further `archive_added` notifications — see the counterexample.) -/
theorem openArchive_idempotent (env : Env) (fuel1 fuel2 : Nat) (F : String)
    (sil1 sil2 : Bool) (s : ManagerState)
    (hauto : env.auto_open_wads_root = false)
    (hm : s.muted = false)
    (hfresh : ∀ pr ∈ s.objects, pr.1 < s.next)
    (hfresh2 : ∀ r ∈ s.open_archives, r.archive < s.next)
    (hnew : getArchiveByFilename s F = none)
    (hsucc : (openArchiveFile env fuel1 F true sil1 s).1.isSome = true) :
    (openArchiveFile env fuel2 F true sil2
        (openArchiveFile env fuel1 F true sil1 s).2).1
      = (openArchiveFile env fuel1 F true sil1 s).1 ∧
    countEvt (openArchiveFile env fuel2 F true sil2
        (openArchiveFile env fuel1 F true sil1 s).2).2 "archive_added"
      = countEvt s "archive_added" + 1 := by
  obtain ⟨h1, harch, ⟨fmtid, hobjs⟩, hmut, hcount⟩ :=
    openArchiveFile_first_open env fuel1 F sil1 s hauto hm hnew hsucc
  have hget : getArchiveByFilename (openArchiveFile env fuel1 F true sil1 s).2 F
      = some s.next :=
    getArchiveByFilename_new s _ F fmtid harch hobjs hfresh hfresh2 hnew
  rw [openArchiveFile_already_open env fuel2 F true sil2 _ _ hget]
  constructor
  · rw [h1]
  · cases sil2 with
    | true =>
      rw [if_pos rfl]
      exact hcount
    | false =>
      rw [if_neg (by simp)]
      rw [countEvt_announce_ne _ _ _ (by decide)]
      exact hcount

/-- `getArchiveByFilename` reads only the record list and the object store:
states agreeing on those two fields resolve every filename identically. -/
theorem getArchiveByFilename_fields (s t : ManagerState)
    (hoa : s.open_archives = t.open_archives) (hob : s.objects = t.objects)
    (F : String) : getArchiveByFilename s F = getArchiveByFilename t F := by
  unfold getArchiveByFilename filenameOf objLookup
  simp only [hoa, hob]

/-- A managed open of an untracked regular file whose format is detected and
whose load succeeds: the fresh handle is returned, exactly one record and
one object are appended, the handle counter advances by one, and exactly one
`archive_added` is emitted (root auto-mount disabled). -/
theorem openArchiveFile_opens_new (env : Env) (fuel : Nat) (F : String)
    (silent : Bool) (s : ManagerState) (fmt : String)
    (hauto : env.auto_open_wads_root = false)
    (hm : s.muted = false)
    (hd : (!env.fileExists F && env.dirExists F) = false)
    (hdet : env.detectFile F = some fmt)
    (hok : env.openFileOk F = true)
    (hnew : getArchiveByFilename s F = none) :
    (openArchiveFile env fuel F true silent s).1 = some s.next ∧
    (openArchiveFile env fuel F true silent s).2.open_archives
        = s.open_archives ++ [⟨s.next, true, []⟩] ∧
    (openArchiveFile env fuel F true silent s).2.objects
        = s.objects ++ [(s.next, ⟨F, fmt, none⟩)] ∧
    (openArchiveFile env fuel F true silent s).2.muted = false ∧
    (openArchiveFile env fuel F true silent s).2.next = s.next + 1 ∧
    countEvt (openArchiveFile env fuel F true silent s).2 "archive_added"
        = countEvt s "archive_added" + 1 := by
  unfold openArchiveFile
  rw [if_neg (by rw [hd]; exact Bool.false_ne_true), hnew]
  dsimp only
  rw [hdet]
  dsimp only
  rw [if_pos hok, if_pos (rfl : (true : Bool) = true)]
  simp only [allocObject]
  have hc := commit_state_spec env fuel s.next F silent
    { s with next := s.next + 1,
             objects := s.objects ++ [(s.next, ⟨F, fmt, none⟩)] }
    hauto (by simp [hm])
  refine ⟨by trivial, ?_, ?_, ?_, ?_, ?_⟩
  · rw [hc.1]
  · rw [hc.2.1]
  · rw [hc.2.2.1]
  · rw [hc.2.2.2.2]
  · rw [hc.2.2.2.1]
    rfl

/-- Counterexample to C3 as stated: two textually different spellings of the
same normalized path ("a\\b.wad" and "a/b.wad").  `getArchive(filename)`
(line 248) compares the raw strings, so the second open does not find the
archive opened by the first: it opens the file again under a fresh handle
(1, not the existing 0), and a second `archive_added` notification fires —
both "returns the existing handle" and "exactly one archive_added in total"
fail for normalized-equal paths. -/
theorem openArchive_normalized_path_double_open :
    normalizePath "a\\b.wad" = normalizePath "a/b.wad" ∧
    "a\\b.wad" ≠ "a/b.wad" ∧
    (openArchiveFile envC3 1 "a\\b.wad" true true emptyState).1 = some 0 ∧
    (openArchiveFile envC3 1 "a/b.wad" true true
        (openArchiveFile envC3 1 "a\\b.wad" true true emptyState).2).1 = some 1 ∧
    countEvt (openArchiveFile envC3 1 "a/b.wad" true true
        (openArchiveFile envC3 1 "a\\b.wad" true true emptyState).2).2 "archive_added"
      = 2 := by
  have h1 := openArchiveFile_opens_new envC3 1 "a\\b.wad" true emptyState "wad"
    rfl rfl rfl rfl rfl rfl
  have hget2 : getArchiveByFilename
      (openArchiveFile envC3 1 "a\\b.wad" true true emptyState).2 "a/b.wad"
      = none := by
    rw [getArchiveByFilename_fields
      (openArchiveFile envC3 1 "a\\b.wad" true true emptyState).2
      { emptyState with
          open_archives := [⟨0, true, []⟩],
          objects := [(0, ⟨"a\\b.wad", "wad", none⟩)] }
      (by rw [h1.2.1]; rfl) (by rw [h1.2.2.1]; rfl) "a/b.wad"]
    decide
  have h2 := openArchiveFile_opens_new envC3 1 "a/b.wad" true
    (openArchiveFile envC3 1 "a\\b.wad" true true emptyState).2 "wad"
    rfl h1.2.2.2.1 rfl rfl rfl hget2
  refine ⟨by decide, by decide, h1.1, ?_, ?_⟩
  · rw [h2.1, h1.2.2.2.2.1]
    rfl
  · rw [h2.2.2.2.2.2, h1.2.2.2.2.2]
    rfl

/-- Witness for the amended C3 theorem at a concrete double open. -/
theorem openArchive_idempotent_witness :
    (openArchiveFile envC3 1 "x.wad" true false
        (openArchiveFile envC3 1 "x.wad" true false emptyState).2).1
      = (openArchiveFile envC3 1 "x.wad" true false emptyState).1 ∧
    countEvt (openArchiveFile envC3 1 "x.wad" true false
        (openArchiveFile envC3 1 "x.wad" true false emptyState).2).2 "archive_added"
      = countEvt emptyState "archive_added" + 1 :=
  openArchive_idempotent envC3 1 1 "x.wad" false false emptyState rfl rfl
    (fun pr hpr => absurd hpr (by simp [emptyState]))
    (fun r hr => absurd hr (by simp [emptyState]))
    rfl rfl

/-! ## C1: cascading close of the descendant subtree -/

theorem getElem?_eraseIdx_of_lt {α : Type} (l : List α) (i j : Nat) (h : j < i) :
    (l.eraseIdx i)[j]? = l[j]? := by
  induction l generalizing i j with
  | nil => simp [List.eraseIdx]
  | cons x xs ih =>
    cases i with
    | zero => omega
    | succ i =>
      cases j with
      | zero => simp [List.eraseIdx]
      | succ j => simp [List.eraseIdx, ih i j (by omega)]

theorem nodup_getElem?_inj {α : Type} [DecidableEq α] (l : List α) (hnd : l.Nodup)
    (i j : Nat) (x : α) (hi : l[i]? = some x) (hj : l[j]? = some x) : i = j :=
  List.getElem?_inj (List.getElem?_eq_some.mp hi).1 hnd (by rw [hi, hj])

theorem recShrink_refl (r : OpenArchive) : RecShrink r r := ⟨rfl, List.Sublist.refl _⟩

theorem recShrink_trans {a b c : OpenArchive} (h1 : RecShrink a b) (h2 : RecShrink b c) :
    RecShrink a c := ⟨h2.1.trans h1.1, h2.2.trans h1.2⟩

theorem forall2_recShrink_refl (l : List OpenArchive) : List.Forall₂ RecShrink l l :=
  List.forall₂_same.mpr fun r _ => recShrink_refl r

theorem forall2_mem_right {R : OpenArchive → OpenArchive → Prop} {l m : List OpenArchive}
    (hf : List.Forall₂ R l m) : ∀ r2 ∈ m, ∃ r ∈ l, R r r2 := by
  induction hf with
  | nil => intro r2 hr2; cases hr2
  | cons h hf ih =>
    intro r2 hr2
    rcases List.mem_cons.mp hr2 with rfl | hm
    · exact ⟨_, List.mem_cons_self _ _, h⟩
    · obtain ⟨r, hrl, hR⟩ := ih r2 hm
      exact ⟨r, List.mem_cons_of_mem _ hrl, hR⟩

theorem handles_eq_of_forall2 {l m : List OpenArchive}
    (hf : List.Forall₂ RecShrink l m) : handles m = handles l := by
  induction hf with
  | nil => rfl
  | cons h hf ih =>
    unfold handles at ih ⊢
    simp only [List.map_cons, ih, h.1]

theorem forall2_sublist_exchange {R : OpenArchive → OpenArchive → Prop}
    {m m2 : List OpenArchive} (hsub : List.Sublist m2 m) :
    ∀ {l : List OpenArchive}, List.Forall₂ R l m →
      ∃ l2, List.Sublist l2 l ∧ List.Forall₂ R l2 m2 := by
  induction hsub with
  | slnil =>
    intro l hf
    exact ⟨[], List.nil_sublist l, by cases hf; exact List.Forall₂.nil⟩
  | cons a hsub ih =>
    intro l hf
    cases hf with
    | cons hR hf2 =>
      obtain ⟨l2, hl2, hf3⟩ := ih hf2
      exact ⟨l2, hl2.trans (List.sublist_cons_self _ _), hf3⟩
  | cons₂ a hsub ih =>
    intro l hf
    cases hf with
    | cons hR hf2 =>
      obtain ⟨l2, hl2, hf3⟩ := ih hf2
      exact ⟨_ :: l2, List.Sublist.cons₂ _ hl2, List.Forall₂.cons hR hf3⟩

theorem forall2_recShrink_trans {a b : List OpenArchive}
    (h1 : List.Forall₂ RecShrink a b) :
    ∀ {c : List OpenArchive}, List.Forall₂ RecShrink b c → List.Forall₂ RecShrink a c := by
  induction h1 with
  | nil =>
    intro c h2
    cases h2
    exact List.Forall₂.nil
  | cons hR h1 ih =>
    intro c h2
    cases h2 with
    | cons hR2 h2 => exact List.Forall₂.cons (recShrink_trans hR hR2) (ih h2)

theorem shrinkL_refl (l : List OpenArchive) : ShrinkL l l :=
  ⟨l, List.Sublist.refl l, forall2_recShrink_refl l⟩

theorem shrinkL_trans {l m k : List OpenArchive} (h1 : ShrinkL l m) (h2 : ShrinkL m k) :
    ShrinkL l k := by
  obtain ⟨l2, hl2, hf2⟩ := h1
  obtain ⟨m2, hm2, hf3⟩ := h2
  obtain ⟨l3, hl3, hf4⟩ := forall2_sublist_exchange hm2 hf2
  exact ⟨l3, hl3.trans hl2, forall2_recShrink_trans hf4 hf3⟩

theorem handles_sublist_of_shrinkL {l m : List OpenArchive} (h : ShrinkL l m) :
    List.Sublist (handles m) (handles l) := by
  obtain ⟨l2, hsub, hf⟩ := h
  rw [handles_eq_of_forall2 hf]
  exact hsub.map _

theorem handles_subset_of_shrinkL {l m : List OpenArchive} (h : ShrinkL l m) :
    ∀ x, x ∈ handles m → x ∈ handles l := fun _ hx =>
  (handles_sublist_of_shrinkL h).subset hx

theorem length_le_of_shrinkL {l m : List OpenArchive} (h : ShrinkL l m) :
    m.length ≤ l.length := by
  obtain ⟨l2, hsub, hf⟩ := h
  rw [← hf.length_eq]
  exact hsub.length_le

theorem shrinkL_set (l : List OpenArchive) (i : Nat) (r2 : OpenArchive)
    (h : ∀ r, l[i]? = some r → RecShrink r r2) : ShrinkL l (l.set i r2) := by
  refine ⟨l, List.Sublist.refl l, ?_⟩
  induction l generalizing i with
  | nil => exact List.Forall₂.nil
  | cons a tl ih =>
    cases i with
    | zero => exact List.Forall₂.cons (h a (by simp)) (forall2_recShrink_refl tl)
    | succ i =>
      exact List.Forall₂.cons (recShrink_refl a)
        (ih i (fun r hr => h r (by simp only [List.getElem?_cons_succ]; exact hr)))

theorem shrinkL_eraseIdx (l : List OpenArchive) (i : Nat) : ShrinkL l (l.eraseIdx i) :=
  ⟨l.eraseIdx i, List.eraseIdx_sublist l i, forall2_recShrink_refl _⟩

theorem findIndex_eq_none_iff (p : OpenArchive → Bool) (l : List OpenArchive) :
    findIndex p l = none ↔ ∀ r ∈ l, p r = false := by
  induction l with
  | nil => simp [findIndex]
  | cons a tl ih =>
    unfold findIndex
    cases hp : p a with
    | true => simp [hp]
    | false => simp [hp, Option.map_eq_none', ih]

theorem findIndex_eq_some_spec (p : OpenArchive → Bool) (l : List OpenArchive) :
    ∀ i, findIndex p l = some i →
      (∃ r, l[i]? = some r ∧ p r = true) ∧
      ∀ j, j < i → ∀ r2, l[j]? = some r2 → p r2 = false := by
  induction l with
  | nil => intro i h; simp [findIndex] at h
  | cons a tl ih =>
    intro i h
    unfold findIndex at h
    cases hp : p a with
    | true =>
      rw [hp, if_pos rfl] at h
      cases h
      exact ⟨⟨a, by simp, hp⟩, fun j hj r2 hr2 => absurd hj (by omega)⟩
    | false =>
      rw [hp, if_neg (by simp)] at h
      cases hfi : findIndex p tl with
      | none => rw [hfi] at h; cases h
      | some k =>
        rw [hfi] at h
        have hik : i = k + 1 := by
          simp only [Option.map_some'] at h
          exact (Option.some.inj h).symm
        subst hik
        obtain ⟨⟨r, hr, hpr⟩, hbefore⟩ := ih k hfi
        refine ⟨⟨r, by simpa using hr, hpr⟩, ?_⟩
        intro j hj r2 hr2
        cases j with
        | zero =>
          have ha : a = r2 := by simpa using hr2
          rw [← ha]
          exact hp
        | succ j =>
          exact hbefore j (by omega) r2 (by simpa using hr2)

theorem mem_handles_iff (l : List OpenArchive) (x : Nat) :
    x ∈ handles l ↔ ∃ r, r ∈ l ∧ r.archive = x := by
  unfold handles
  exact List.mem_map

theorem archiveIndexOf_none_iff (l : List OpenArchive) (h : Nat) :
    archiveIndexOf l h = none ↔ h ∉ handles l := by
  unfold archiveIndexOf
  rw [findIndex_eq_none_iff, mem_handles_iff]
  constructor
  · rintro hall ⟨r, hr, hrh⟩
    have := hall r hr
    rw [hrh] at this
    simp at this
  · intro hnm r hr
    cases hc : (r.archive == h) with
    | false => rfl
    | true => exact absurd ⟨r, hr, by simpa using hc⟩ hnm

theorem archiveIndexOf_some_spec (l : List OpenArchive) (h i : Nat)
    (hfind : archiveIndexOf l h = some i) :
    (∃ r, l[i]? = some r ∧ r.archive = h) ∧
    ∀ j, j < i → ∀ r2, l[j]? = some r2 → r2.archive ≠ h := by
  obtain ⟨⟨r, hr, hpr⟩, hbef⟩ := findIndex_eq_some_spec _ l i hfind
  refine ⟨⟨r, hr, by simpa using hpr⟩, ?_⟩
  intro j hj r2 hr2 hcon
  have := hbef j hj r2 hr2
  rw [hcon] at this
  simp at this

theorem eAc_of_not_mem (x : Nat) (r : OpenArchive) (h : x ∉ r.open_children) :
    eAc x r = r := by
  unfold eAc
  rw [List.erase_of_not_mem h]

theorem not_mem_eAc_of_nodup (x : Nat) (r : OpenArchive) (h : r.open_children.Nodup) :
    x ∉ (eAc x r).open_children := h.not_mem_erase

theorem WFr_of_shrinkL (env : Env) (objs : List (Nat × ArchiveInfo)) {l m : List OpenArchive}
    (hs : ShrinkL l m) (hWF : WFr env objs l) : WFr env objs m := by
  obtain ⟨hnd, hcp, hcnd, hself, hpw⟩ := hWF
  obtain ⟨l2, hsub, hf⟩ := hs
  have hmem : ∀ r2 ∈ m, ∃ r ∈ l, RecShrink r r2 := by
    intro r2 hr2
    obtain ⟨r, hrl2, hR⟩ := forall2_mem_right hf r2 hr2
    exact ⟨r, hsub.subset hrl2, hR⟩
  refine ⟨?_, ?_, ?_, ?_, ?_⟩
  · rw [handles_eq_of_forall2 hf]
    exact hnd.sublist (hsub.map _)
  · intro r2 hr2 c hc
    obtain ⟨r, hrl, hR⟩ := hmem r2 hr2
    rw [hR.1]
    exact hcp r hrl c (hR.2.subset hc)
  · intro r2 hr2
    obtain ⟨r, hrl, hR⟩ := hmem r2 hr2
    exact (hcnd r hrl).sublist hR.2
  · intro r2 hr2 hc
    obtain ⟨r, hrl, hR⟩ := hmem r2 hr2
    have hc2 : r.archive ∈ r2.open_children := by rw [← hR.1]; exact hc
    exact hself r hrl (hR.2.subset hc2)
  · have hpw2 := hpw.sublist hsub
    clear hmem hsub hnd hcp hcnd hself hpw
    revert hpw2
    induction hf with
    | nil => intro _; exact List.Pairwise.nil
    | cons hR hf ih =>
      intro hpw2
      rw [List.pairwise_cons] at hpw2 ⊢
      refine ⟨?_, ih hpw2.2⟩
      intro r2 hr2 hc
      obtain ⟨r, hrl, hR2⟩ := forall2_mem_right hf r2 hr2
      have hc2 : _ ∈ r.open_children := hR2.2.subset hc
      rw [hR.1] at hc2
      exact hpw2.1 r hrl hc2

theorem deleteBookmarksInArchive_open_archives (env : Env) (a : Nat) (s : ManagerState) :
    (deleteBookmarksInArchive env a s).2.open_archives = s.open_archives := by
  unfold deleteBookmarksInArchive
  dsimp only
  split
  · rfl
  · simp

theorem deleteBookmarksInArchive_objects (env : Env) (a : Nat) (s : ManagerState) :
    (deleteBookmarksInArchive env a s).2.objects = s.objects := by
  unfold deleteBookmarksInArchive
  dsimp only
  split
  · rfl
  · simp

theorem reach_dead (l m : List OpenArchive)
    (hK : ∀ u v, Edge l u v → u ∉ handles m → v ∉ handles m)
    (a : Nat) (ha : a ∉ handles m) :
    ∀ x, Reaches l a x → x ∉ handles m := by
  intro x hx
  unfold Reaches at hx
  induction hx with
  | refl => exact ha
  | tail hpath hedge ih => exact hK _ _ hedge ih

theorem edge_iff_position (l : List OpenArchive) (u v : Nat) :
    Edge l u v ↔
      ∃ (i : Nat) (r : OpenArchive), l[i]? = some r ∧ r.archive = u ∧ v ∈ r.open_children := by
  unfold Edge
  constructor
  · rintro ⟨r, hr, ha, hv⟩
    obtain ⟨i, hi⟩ := List.mem_iff_getElem?.mp hr
    exact ⟨i, r, hi, ha, hv⟩
  · rintro ⟨i, r, hi, ha, hv⟩
    exact ⟨r, List.getElem?_mem hi, ha, hv⟩

theorem handles_set (l : List OpenArchive) (i : Nat) (r2 : OpenArchive)
    (h : ∀ r, l[i]? = some r → r2.archive = r.archive) :
    handles (l.set i r2) = handles l := by
  induction l generalizing i with
  | nil => rfl
  | cons a tl ih =>
    cases i with
    | zero =>
      unfold handles
      simp [h a (by simp)]
    | succ i =>
      unfold handles at ih ⊢
      simp only [List.set_cons_succ, List.map_cons]
      rw [ih i (fun r hr => h r (by simp only [List.getElem?_cons_succ]; exact hr))]

theorem handles_eraseIdx (l : List OpenArchive) (i : Nat) :
    handles (l.eraseIdx i) = (handles l).eraseIdx i := by
  induction l generalizing i with
  | nil => rfl
  | cons a tl ih =>
    cases i with
    | zero => rfl
    | succ i =>
      unfold handles at ih ⊢
      simp [List.eraseIdx, ih]

theorem not_mem_eraseIdx_of_nodup (l : List Nat) (i x : Nat) (hn : l.Nodup)
    (hx : l[i]? = some x) : x ∉ l.eraseIdx i := by
  induction l generalizing i with
  | nil => simp
  | cons a tl ih =>
    cases i with
    | zero =>
      have ha : a = x := by simpa using hx
      subst ha
      simpa using (List.nodup_cons.mp hn).1
    | succ i =>
      simp only [List.getElem?_cons_succ] at hx
      simp only [List.eraseIdx]
      intro hmem
      rcases List.mem_cons.mp hmem with rfl | hm
      · exact (List.nodup_cons.mp hn).1 (List.getElem?_mem hx)
      · exact ih i (List.nodup_cons.mp hn).2 hx hm

theorem setChildren_getElem?_self (l : List OpenArchive) (i : Nat) (g : List Nat → List Nat)
    (r : OpenArchive) (h : l[i]? = some r) :
    (setChildren l i g)[i]? = some { r with open_children := g r.open_children } := by
  have hlen : i < l.length := (List.getElem?_eq_some.mp h).1
  have hget : l.getD i default = r := by rw [List.getD_eq_getElem?_getD, h]; rfl
  unfold setChildren
  rw [hget, List.getElem?_set_self hlen]

theorem setChildren_getElem?_ne (l : List OpenArchive) (i j : Nat) (g : List Nat → List Nat)
    (h : i ≠ j) : (setChildren l i g)[j]? = l[j]? := by
  unfold setChildren
  exact List.getElem?_set_ne h

theorem setChildren_handles (l : List OpenArchive) (i : Nat) (g : List Nat → List Nat) :
    handles (setChildren l i g) = handles l := by
  unfold setChildren
  apply handles_set
  intro r hr
  have hget : l.getD i default = r := by rw [List.getD_eq_getElem?_getD, hr]; rfl
  rw [hget]

theorem setChildren_shrinkL (l : List OpenArchive) (i : Nat) (g : List Nat → List Nat)
    (hg : ∀ cs, List.Sublist (g cs) cs) : ShrinkL l (setChildren l i g) := by
  unfold setChildren
  apply shrinkL_set
  intro r hr
  have hget : l.getD i default = r := by rw [List.getD_eq_getElem?_getD, hr]; rfl
  rw [hget]
  exact ⟨rfl, hg r.open_children⟩

theorem setChildren_length (l : List OpenArchive) (i : Nat) (g : List Nat → List Nat) :
    (setChildren l i g).length = l.length := by
  unfold setChildren
  exact List.length_set ..

theorem edge_src_mem (l : List OpenArchive) (u v : Nat) (h : Edge l u v) :
    u ∈ handles l := by
  obtain ⟨r, hr, ha, _⟩ := h
  exact (mem_handles_iff l u).mpr ⟨r, hr, ha⟩

theorem archive_position_unique (l : List OpenArchive) (hnd : (handles l).Nodup)
    (i j : Nat) (ri rj : OpenArchive) (hi : l[i]? = some ri) (hj : l[j]? = some rj)
    (ha : ri.archive = rj.archive) : i = j := by
  apply nodup_getElem?_inj (handles l) hnd i j ri.archive
  · unfold handles
    rw [List.getElem?_map, hi]
    rfl
  · unfold handles
    rw [List.getElem?_map, hj, ha]
    rfl

/-- The child-closing loop of `closeArchive`, under the `CloseSpec` bundle at
fuel `f`: looping over snapshot children `cs` of the record at position `idx`
(archive `p`, children already cleared) keeps the registry prefix up to `idx`
fixed, shrinks the registry, keeps it well-formed, removes every child in
`cs`, removes recorded children of removed archives, and only breaks edges
with a removed endpoint. -/
theorem closeChildrenLoop_spec (env : Env) (f idx p : Nat) (res : Bool)
    (l3 : List OpenArchive) (objs : List (Nat × ArchiveInfo))
    (hP : CloseSpec env f)
    (hidx3 : l3[idx]? = some ⟨p, res, []⟩)
    (hfuel : l3.length ≤ f + idx + 1) :
    ∀ (cs : List Nat) (s : ManagerState),
      s.objects = objs →
      WFr env objs s.open_archives →
      (∀ j, j ≤ idx → s.open_archives[j]? = l3[j]?) →
      s.open_archives.length ≤ l3.length →
      (∀ c ∈ cs, apArchive objs env c = some p) →
      (∀ c ∈ cs, ∀ j, j ≤ idx → ∀ r2, l3[j]? = some r2 → r2.archive ≠ c) →
      (closeChildrenLoop env f cs s).objects = objs ∧
      WFr env objs (closeChildrenLoop env f cs s).open_archives ∧
      (∀ j, j ≤ idx → (closeChildrenLoop env f cs s).open_archives[j]? = l3[j]?) ∧
      (closeChildrenLoop env f cs s).open_archives.length ≤ l3.length ∧
      ShrinkL s.open_archives (closeChildrenLoop env f cs s).open_archives ∧
      (∀ c ∈ cs, c ∉ handles (closeChildrenLoop env f cs s).open_archives) ∧
      (∀ u v, Edge s.open_archives u v →
        u ∉ handles (closeChildrenLoop env f cs s).open_archives →
        v ∉ handles (closeChildrenLoop env f cs s).open_archives) ∧
      (∀ u v, Edge s.open_archives u v →
        Edge (closeChildrenLoop env f cs s).open_archives u v ∨
        u ∉ handles (closeChildrenLoop env f cs s).open_archives ∨
        v ∉ handles (closeChildrenLoop env f cs s).open_archives) := by
  intro cs
  induction cs with
  | nil =>
    intro s hobj hWF hpre hlen hpar hpos
    simp only [closeChildrenLoop]
    refine ⟨hobj, hWF, hpre, hlen, shrinkL_refl _, ?_, ?_, ?_⟩
    · intro c hc
      cases hc
    · intro u v he hd
      exact absurd (edge_src_mem _ _ _ he) hd
    · intro u v he
      exact Or.inl he
  | cons c cs ih =>
    intro s hobj hWF hpre hlen hpar hpos
    simp only [closeChildrenLoop]
    cases hfind : archiveIndexOf s.open_archives c with
    | none =>
      obtain ⟨Q1, Q2, Q3, Q4, Q5, Q6, Q7, Q8⟩ := ih s hobj hWF hpre hlen
        (fun c2 hc2 => hpar c2 (List.mem_cons_of_mem _ hc2))
        (fun c2 hc2 => hpos c2 (List.mem_cons_of_mem _ hc2))
      refine ⟨Q1, Q2, Q3, Q4, Q5, ?_, Q7, Q8⟩
      intro c2 hc2
      rcases List.mem_cons.mp hc2 with rfl | hm
      · intro hmem
        exact ((archiveIndexOf_none_iff _ _).mp hfind)
          (handles_subset_of_shrinkL Q5 _ hmem)
      · exact Q6 c2 hm
    | some ci =>
      obtain ⟨⟨rc, hrc, hrca⟩, hbefore⟩ := archiveIndexOf_some_spec _ _ _ hfind
      have hci_gt : idx < ci := by
        by_contra hle2
        push_neg at hle2
        have hl3ci : l3[ci]? = some rc := (hpre ci hle2).symm.trans hrc
        exact hpos c (List.mem_cons_self _ _) ci hle2 rc hl3ci hrca
      have hci_lt : ci < s.open_archives.length := (List.getElem?_eq_some.mp hrc).1
      obtain ⟨M1, M2, M3, M4, M5, M6, M7, M8⟩ := hP ci s rc
        (by rw [hobj]; exact hWF) hrc (by omega)
      rw [hrca] at M3 M5 M8
      have hobj2 : (closeArchiveFuel env f ci s).2.objects = objs := M2.trans hobj
      have hWF2 : WFr env objs (closeArchiveFuel env f ci s).2.open_archives :=
        WFr_of_shrinkL env objs M4 hWF
      have hpre2 : ∀ j, j ≤ idx →
          (closeArchiveFuel env f ci s).2.open_archives[j]? = l3[j]? := by
        intro j hj
        rw [M3 j (by omega), hpre j hj]
        cases hl3j : l3[j]? with
        | none => rfl
        | some rj =>
          simp only [Option.map_some']
          have hcnm : c ∉ rj.open_children := by
            intro hcm
            have hrjm : rj ∈ s.open_archives :=
              List.getElem?_mem ((hpre j hj).trans hl3j)
            have hap := hWF.2.1 rj hrjm c hcm
            rw [hpar c (List.mem_cons_self _ _)] at hap
            have hrja : rj.archive = p := by
              have := Option.some.inj hap
              omega
            have hji : j = idx := archive_position_unique s.open_archives hWF.1 j idx
              rj ⟨p, res, []⟩ ((hpre j hj).trans hl3j)
              ((hpre idx (Nat.le_refl idx)).trans hidx3) (by simpa using hrja)
            rw [hji] at hl3j
            rw [hidx3] at hl3j
            have : rj = ⟨p, res, []⟩ := (Option.some.inj hl3j).symm
            rw [this] at hcm
            cases hcm
          rw [eAc_of_not_mem c rj hcnm]
      have hlen2 : (closeArchiveFuel env f ci s).2.open_archives.length ≤ l3.length :=
        Nat.le_trans (length_le_of_shrinkL M4) hlen
      obtain ⟨Q1, Q2, Q3, Q4, Q5, Q6, Q7, Q8⟩ := ih (closeArchiveFuel env f ci s).2
        hobj2 hWF2 hpre2 hlen2
        (fun c2 hc2 => hpar c2 (List.mem_cons_of_mem _ hc2))
        (fun c2 hc2 => hpos c2 (List.mem_cons_of_mem _ hc2))
      refine ⟨Q1, Q2, Q3, Q4, shrinkL_trans M4 Q5, ?_, ?_, ?_⟩
      · intro c2 hc2
        rcases List.mem_cons.mp hc2 with rfl | hm
        · intro hmem
          exact M5 (handles_subset_of_shrinkL Q5 _ hmem)
        · exact Q6 c2 hm
      · intro u v he hd
        by_cases hu2 : u ∈ handles (closeArchiveFuel env f ci s).2.open_archives
        · rcases M7 u v he with he2 | hu2n | hv2
          · exact Q7 u v he2 hd
          · exact absurd hu2 hu2n
          · intro hvm
            exact hv2 (handles_subset_of_shrinkL Q5 _ hvm)
        · intro hvm
          exact M6 u v he hu2 (handles_subset_of_shrinkL Q5 _ hvm)
      · intro u v he
        rcases M7 u v he with he2 | hu2 | hv2
        · exact Q8 u v he2
        · exact Or.inr (Or.inl (fun hm => hu2 (handles_subset_of_shrinkL Q5 _ hm)))
        · exact Or.inr (Or.inr (fun hm => hv2 (handles_subset_of_shrinkL Q5 _ hm)))

theorem mem_eraseIdx_of_getElem?_ne {α : Type} (l : List α) (i q : Nat) (x : α)
    (h : l[q]? = some x) (hne : q ≠ i) : x ∈ l.eraseIdx i := by
  rcases Nat.lt_or_ge q i with hlt | hge
  · exact List.getElem?_mem ((getElem?_eraseIdx_of_lt l i q hlt).trans h)
  · have hgt : i < q := by omega
    have hstep := getElem?_eraseIdx_of_le l i (q - 1) (by omega)
    have hq : q - 1 + 1 = q := by omega
    rw [hq] at hstep
    exact List.getElem?_mem (hstep.trans h)

/-- The common tail of `closeFinish`: removing the (cleared) record of the
closed archive at `idx` from a registry `mor` that already satisfies the
detach-step postconditions. -/
theorem closeFinish_core (idx : Nat) (r : OpenArchive) (l0 : List OpenArchive)
    (w : ManagerState) (mor : List OpenArchive)
    (hnodupw : (handles w.open_archives).Nodup)
    (h5 : w.open_archives[idx]? = some { r with open_children := [] })
    (P1 : ∀ j, j < idx → mor[j]? = (l0[j]?).map (eAc r.archive))
    (P2 : mor[idx]? = some { r with open_children := [] })
    (P3 : handles mor = handles w.open_archives)
    (P4 : ShrinkL w.open_archives mor)
    (P5 : ∀ (j : Nat) (r2 : OpenArchive), mor[j]? = some r2 → r.archive ∉ r2.open_children)
    (P6 : ∀ u v, Edge w.open_archives u v → v ≠ r.archive → Edge mor u v) :
    (∀ j, j < idx → (mor.eraseIdx idx)[j]? = (l0[j]?).map (eAc r.archive)) ∧
    ShrinkL w.open_archives (mor.eraseIdx idx) ∧
    r.archive ∉ handles (mor.eraseIdx idx) ∧
    (∀ u, u ∈ handles w.open_archives → u ≠ r.archive → u ∈ handles (mor.eraseIdx idx)) ∧
    (∀ u v, Edge w.open_archives u v → v ≠ r.archive → Edge (mor.eraseIdx idx) u v) ∧
    (∀ r2 ∈ mor.eraseIdx idx, r.archive ∉ r2.open_children) := by
  have hwida : (handles w.open_archives)[idx]? = some r.archive := by
    unfold handles
    rw [List.getElem?_map, h5]
    rfl
  refine ⟨?_, ?_, ?_, ?_, ?_, ?_⟩
  · intro j hj
    rw [getElem?_eraseIdx_of_lt mor idx j hj]
    exact P1 j hj
  · exact shrinkL_trans P4 (shrinkL_eraseIdx mor idx)
  · rw [handles_eraseIdx, P3]
    exact not_mem_eraseIdx_of_nodup _ idx r.archive hnodupw hwida
  · intro u hu hune
    obtain ⟨q, hq⟩ := List.mem_iff_getElem?.mp hu
    have hqne : q ≠ idx := by
      intro he
      rw [he, hwida] at hq
      exact hune (Option.some.inj hq).symm
    rw [handles_eraseIdx, P3]
    exact mem_eraseIdx_of_getElem?_ne _ idx q u hq hqne
  · intro u v he hvne
    obtain ⟨q, ru, hq, hua, hv⟩ := (edge_iff_position mor u v).mp (P6 u v he hvne)
    have hune : u ≠ r.archive := by
      intro hue
      have hq_idx : q = idx := by
        apply archive_position_unique mor (P3 ▸ hnodupw) q idx ru _ hq P2
        rw [hua, hue]
      rw [hq_idx, P2] at hq
      have : ru = { r with open_children := [] } := (Option.some.inj hq).symm
      rw [this] at hv
      cases hv
    have hqne : q ≠ idx := by
      intro he
      rw [he, P2] at hq
      have : ru = { r with open_children := [] } := (Option.some.inj hq).symm
      rw [this] at hv
      cases hv
    exact ⟨ru, mem_eraseIdx_of_getElem?_ne mor idx q ru hq hqne, hua, hv⟩
  · intro r2 hr2
    have hr2m : r2 ∈ mor := (List.eraseIdx_sublist mor idx).subset hr2
    obtain ⟨q, hq⟩ := List.mem_iff_getElem?.mp hr2m
    exact P5 q r2 hq

/-- The tail of `closeArchive(index)` after the child loop (lines 614-649):
detaching the closed archive from its parent's child list and erasing its
record.  Stated against the original registry `l0` (the prefix up to the
closed position is still intact at this point, and the record at the closed
position has been cleared). -/
theorem closeFinish_spec (env : Env) (idx : Nat) (r : OpenArchive)
    (l0 : List OpenArchive) (w : ManagerState)
    (hWF0 : WFr env w.objects l0)
    (hWFw : WFr env w.objects w.open_archives)
    (h4 : ∀ j, j < idx → w.open_archives[j]? = l0[j]?)
    (h5 : w.open_archives[idx]? = some { r with open_children := [] }) :
    (closeFinish env idx w).1 = true ∧
    (closeFinish env idx w).2.objects = w.objects ∧
    (∀ j, j < idx → (closeFinish env idx w).2.open_archives[j]?
        = (l0[j]?).map (eAc r.archive)) ∧
    ShrinkL w.open_archives (closeFinish env idx w).2.open_archives ∧
    r.archive ∉ handles (closeFinish env idx w).2.open_archives ∧
    (∀ u, u ∈ handles w.open_archives → u ≠ r.archive →
      u ∈ handles (closeFinish env idx w).2.open_archives) ∧
    (∀ u v, Edge w.open_archives u v → v ≠ r.archive →
      Edge (closeFinish env idx w).2.open_archives u v) ∧
    (∀ r2 ∈ (closeFinish env idx w).2.open_archives, r.archive ∉ r2.open_children) := by
  have hw_lt : idx < w.open_archives.length := (List.getElem?_eq_some.mp h5).1
  have hrec1 : w.open_archives.getD idx default = { r with open_children := [] } := by
    rw [List.getD_eq_getElem?_getD, h5]
    rfl
  have hnodupw : (handles w.open_archives).Nodup := hWFw.1
  cases hap : apArchive w.objects env r.archive with
  | none =>
    have hcf : closeFinish env idx w
        = (true, announceE { w with open_archives := w.open_archives.eraseIdx idx }
            "archive_closed") := by
      unfold closeFinish
      rw [if_pos hw_lt, hrec1]
      dsimp only
      rw [hap]
    have hP1 : ∀ j, j < idx → w.open_archives[j]? = (l0[j]?).map (eAc r.archive) := by
      intro j hj
      rw [h4 j hj]
      cases hl0j : l0[j]? with
      | none => rfl
      | some rj =>
        simp only [Option.map_some']
        have hnm : r.archive ∉ rj.open_children := by
          intro hp
          have hcp := hWF0.2.1 rj (List.getElem?_mem hl0j) r.archive hp
          rw [hap] at hcp
          cases hcp
        rw [eAc_of_not_mem _ _ hnm]
    have hP5 : ∀ (j : Nat) (r2 : OpenArchive), w.open_archives[j]? = some r2 →
        r.archive ∉ r2.open_children := by
      intro j r2 hj hp
      have hcp := hWFw.2.1 r2 (List.getElem?_mem hj) r.archive hp
      rw [hap] at hcp
      cases hcp
    obtain ⟨K1, K2, K3, K4, K5, K6⟩ := closeFinish_core idx r l0 w w.open_archives
      hnodupw h5 hP1 h5 rfl (shrinkL_refl _) hP5 (fun u v he _ => he)
    have hb : (closeFinish env idx w).1 = true := by rw [hcf]
    have hoa : (closeFinish env idx w).2.open_archives
        = w.open_archives.eraseIdx idx := by
      rw [hcf]
      simp
    have hobj : (closeFinish env idx w).2.objects = w.objects := by
      rw [hcf]
      simp
    rw [hb, hoa, hobj]
    exact ⟨rfl, rfl, K1, K2, K3, K4, K5, K6⟩
  | some gp =>
    cases hgi : archiveIndexOf w.open_archives gp with
    | none =>
      have hgp := (archiveIndexOf_none_iff w.open_archives gp).mp hgi
      have hcf : closeFinish env idx w
          = (true, announceE { w with open_archives := w.open_archives.eraseIdx idx }
              "archive_closed") := by
        unfold closeFinish
        rw [if_pos hw_lt, hrec1]
        dsimp only
        rw [hap]
        dsimp only
        rw [hgi]
      have hP1 : ∀ j, j < idx → w.open_archives[j]? = (l0[j]?).map (eAc r.archive) := by
        intro j hj
        rw [h4 j hj]
        cases hl0j : l0[j]? with
        | none => rfl
        | some rj =>
          simp only [Option.map_some']
          have hnm : r.archive ∉ rj.open_children := by
            intro hp
            have hcp := hWF0.2.1 rj (List.getElem?_mem hl0j) r.archive hp
            rw [hap] at hcp
            have hrja : rj.archive = gp := (Option.some.inj hcp).symm
            exact hgp ((mem_handles_iff _ gp).mpr
              ⟨rj, List.getElem?_mem ((h4 j hj).trans hl0j), hrja⟩)
          rw [eAc_of_not_mem _ _ hnm]
      have hP5 : ∀ (j : Nat) (r2 : OpenArchive), w.open_archives[j]? = some r2 →
          r.archive ∉ r2.open_children := by
        intro j r2 hj hp
        have hcp := hWFw.2.1 r2 (List.getElem?_mem hj) r.archive hp
        rw [hap] at hcp
        have hr2a : r2.archive = gp := (Option.some.inj hcp).symm
        exact hgp ((mem_handles_iff _ gp).mpr ⟨r2, List.getElem?_mem hj, hr2a⟩)
      obtain ⟨K1, K2, K3, K4, K5, K6⟩ := closeFinish_core idx r l0 w w.open_archives
        hnodupw h5 hP1 h5 rfl (shrinkL_refl _) hP5 (fun u v he _ => he)
      have hb : (closeFinish env idx w).1 = true := by rw [hcf]
      have hoa : (closeFinish env idx w).2.open_archives
          = w.open_archives.eraseIdx idx := by
        rw [hcf]
        simp
      have hobj : (closeFinish env idx w).2.objects = w.objects := by
        rw [hcf]
        simp
      rw [hb, hoa, hobj]
      exact ⟨rfl, rfl, K1, K2, K3, K4, K5, K6⟩
    | some pi =>
      obtain ⟨⟨rpi, hrpi, hrpia⟩, hbef⟩ := archiveIndexOf_some_spec w.open_archives gp pi hgi
      have hcf : closeFinish env idx w
          = (true, announceE { w with open_archives :=
              (setChildren w.open_archives pi
                (fun cs => cs.erase r.archive)).eraseIdx idx } "archive_closed") := by
        unfold closeFinish
        rw [if_pos hw_lt, hrec1]
        dsimp only
        rw [hap]
        dsimp only
        rw [hgi]
      have hP2 : (setChildren w.open_archives pi (fun cs => cs.erase r.archive))[idx]?
          = some { r with open_children := [] } := by
        by_cases hpii : pi = idx
        · subst hpii
          rw [setChildren_getElem?_self w.open_archives pi _ _ h5]
          rfl
        · rw [setChildren_getElem?_ne _ _ _ _ hpii]
          exact h5
      have hP3 : handles (setChildren w.open_archives pi (fun cs => cs.erase r.archive))
          = handles w.open_archives := setChildren_handles _ _ _
      have hP4 : ShrinkL w.open_archives
          (setChildren w.open_archives pi (fun cs => cs.erase r.archive)) :=
        setChildren_shrinkL _ _ _ (fun cs => List.erase_sublist _ _)
      have hP1 : ∀ j, j < idx →
          (setChildren w.open_archives pi (fun cs => cs.erase r.archive))[j]?
            = (l0[j]?).map (eAc r.archive) := by
        intro j hj
        by_cases hjpi : j = pi
        · subst hjpi
          have hl0j : l0[j]? = some rpi := (h4 j hj).symm.trans hrpi
          rw [setChildren_getElem?_self w.open_archives j _ rpi hrpi, hl0j]
          rfl
        · rw [setChildren_getElem?_ne _ _ _ _ (fun he => hjpi he.symm)]
          rw [h4 j hj]
          cases hl0j : l0[j]? with
          | none => rfl
          | some rj =>
            simp only [Option.map_some']
            have hnm : r.archive ∉ rj.open_children := by
              intro hp
              have hcp := hWF0.2.1 rj (List.getElem?_mem hl0j) r.archive hp
              rw [hap] at hcp
              have hrja : rj.archive = gp := (Option.some.inj hcp).symm
              have hwj : w.open_archives[j]? = some rj := (h4 j hj).trans hl0j
              rcases Nat.lt_or_ge j pi with hlt2 | hge2
              · exact hbef j hlt2 rj hwj hrja
              · exact hjpi (archive_position_unique w.open_archives hnodupw j pi rj rpi
                  hwj hrpi (by rw [hrja, hrpia]))
            rw [eAc_of_not_mem _ _ hnm]
      have hP5 : ∀ (j : Nat) (r2 : OpenArchive),
          (setChildren w.open_archives pi (fun cs => cs.erase r.archive))[j]? = some r2 →
          r.archive ∉ r2.open_children := by
        intro j r2 hj hp
        by_cases hjpi : j = pi
        · subst hjpi
          rw [setChildren_getElem?_self w.open_archives j _ rpi hrpi] at hj
          have hr2 : r2 = { rpi with open_children := rpi.open_children.erase r.archive } :=
            (Option.some.inj hj).symm
          rw [hr2] at hp
          exact (hWFw.2.2.1 rpi (List.getElem?_mem hrpi)).not_mem_erase hp
        · rw [setChildren_getElem?_ne _ _ _ _ (fun he => hjpi he.symm)] at hj
          have hcp := hWFw.2.1 r2 (List.getElem?_mem hj) r.archive hp
          rw [hap] at hcp
          have hr2a : r2.archive = gp := (Option.some.inj hcp).symm
          exact hjpi (archive_position_unique w.open_archives hnodupw j pi r2 rpi hj hrpi
            (by rw [hr2a, hrpia]))
      have hP6 : ∀ u v, Edge w.open_archives u v → v ≠ r.archive →
          Edge (setChildren w.open_archives pi (fun cs => cs.erase r.archive)) u v := by
        intro u v he hvne
        obtain ⟨q, ru, hq, hua, hv⟩ := (edge_iff_position w.open_archives u v).mp he
        by_cases hqpi : q = pi
        · subst hqpi
          have hru : ru = rpi := Option.some.inj (hq.symm.trans hrpi)
          refine (edge_iff_position _ u v).mpr
            ⟨q, { rpi with open_children := rpi.open_children.erase r.archive },
             setChildren_getElem?_self _ _ _ _ hrpi, ?_, ?_⟩
          · rw [← hru]
            exact hua
          · rw [← hru]
            exact (List.mem_erase_of_ne hvne).mpr hv
        · exact (edge_iff_position _ u v).mpr
            ⟨q, ru, by rw [setChildren_getElem?_ne _ _ _ _ (fun he2 => hqpi he2.symm)]; exact hq,
             hua, hv⟩
      obtain ⟨K1, K2, K3, K4, K5, K6⟩ := closeFinish_core idx r l0 w
        (setChildren w.open_archives pi (fun cs => cs.erase r.archive))
        hnodupw h5 hP1 hP2 hP3 hP4 hP5 hP6
      have hb : (closeFinish env idx w).1 = true := by rw [hcf]
      have hoa : (closeFinish env idx w).2.open_archives
          = (setChildren w.open_archives pi (fun cs => cs.erase r.archive)).eraseIdx idx := by
        rw [hcf]
        simp
      have hobj : (closeFinish env idx w).2.objects = w.objects := by
        rw [hcf]
        simp
      rw [hb, hoa, hobj]
      exact ⟨rfl, rfl, K1, K2, K3, K4, K5, K6⟩

/-- The cascading-close specification bundle holds at every fuel. -/
theorem closeSpec_all (env : Env) : ∀ f, CloseSpec env f := by
  intro f
  induction f with
  | zero =>
    intro idx s r hWF hr hfuel
    have hlt : idx < s.open_archives.length := (List.getElem?_eq_some.mp hr).1
    omega
  | succ f ih =>
    intro idx s r hWF hr hfuel
    have hlt : idx < s.open_archives.length := (List.getElem?_eq_some.mp hr).1
    have hrec0 : s.open_archives.getD idx default = r := by
      rw [List.getD_eq_getElem?_getD, hr]
      rfl
    have hstep : closeArchiveFuel env (f + 1) idx s
        = closeFinish env idx (closeChildrenLoop env f r.open_children
            { (deleteBookmarksInArchive env r.archive (announceE s "archive_closing")).2 with
                open_archives := (deleteBookmarksInArchive env r.archive
                  (announceE s "archive_closing")).2.open_archives.set idx
                  { r with open_children := [] } }) := by
      simp only [closeArchiveFuel]
      rw [if_pos hlt, hrec0]
    have hsd_oa : (deleteBookmarksInArchive env r.archive
        (announceE s "archive_closing")).2.open_archives = s.open_archives := by
      rw [deleteBookmarksInArchive_open_archives, announceE_open_archives]
    have hsd_obj : (deleteBookmarksInArchive env r.archive
        (announceE s "archive_closing")).2.objects = s.objects := by
      rw [deleteBookmarksInArchive_objects, announceE_objects]
    rw [hsd_oa] at hstep
    have hidx3 : (s.open_archives.set idx { r with open_children := [] })[idx]?
        = some ⟨r.archive, r.resource, []⟩ := by
      rw [List.getElem?_set_self hlt]
    have hShrink0 : ShrinkL s.open_archives
        (s.open_archives.set idx { r with open_children := [] }) := by
      apply shrinkL_set
      intro r2 hr2
      have hr2r : r2 = r := Option.some.inj (hr2.symm.trans hr)
      rw [hr2r]
      exact ⟨rfl, List.nil_sublist _⟩
    have hWF3 : WFr env s.objects
        (s.open_archives.set idx { r with open_children := [] }) :=
      WFr_of_shrinkL env s.objects hShrink0 hWF
    obtain ⟨W1, W2, W3, W4, W5, W6, W7, W8⟩ := closeChildrenLoop_spec env f idx
      r.archive r.resource (s.open_archives.set idx { r with open_children := [] })
      s.objects ih hidx3
      (by rw [List.length_set]; omega)
      r.open_children
      { (deleteBookmarksInArchive env r.archive (announceE s "archive_closing")).2 with
          open_archives := s.open_archives.set idx { r with open_children := [] } }
      hsd_obj hWF3 (fun j hj => rfl) (by rw [List.length_set])
      (fun c hc => hWF.2.1 r (List.getElem?_mem hr) c hc)
      (by
        intro c hc j hj r2 hr2 hcon
        by_cases hji : j = idx
        · subst hji
          rw [hidx3] at hr2
          have hr2v : r2 = ⟨r.archive, r.resource, []⟩ := (Option.some.inj hr2).symm
          rw [hr2v] at hcon
          rw [← hcon] at hc
          exact hWF.2.2.2.1 r (List.getElem?_mem hr) hc
        · have hl0j : s.open_archives[j]? = some r2 :=
            (List.getElem?_set_ne (fun he => hji he.symm)).symm.trans hr2
          obtain ⟨hjlen, hjget⟩ := List.getElem?_eq_some.mp hl0j
          obtain ⟨hilen, higet⟩ := List.getElem?_eq_some.mp hr
          have hpw := hWF.2.2.2.2
          rw [List.pairwise_iff_getElem] at hpw
          have hP := hpw j idx hjlen hilen (by omega)
          rw [hjget, higet, hcon] at hP
          exact hP hc)
    obtain ⟨F1, F2, F3, F4, F5, F6, F7, F8⟩ := closeFinish_spec env idx r
      s.open_archives
      (closeChildrenLoop env f r.open_children
        { (deleteBookmarksInArchive env r.archive (announceE s "archive_closing")).2 with
            open_archives := s.open_archives.set idx { r with open_children := [] } })
      (by rw [W1]; exact hWF) (by rw [W1]; exact W2)
      (fun j hj => by
        rw [W3 j (Nat.le_of_lt hj)]
        exact List.getElem?_set_ne (by omega))
      ((W3 idx (Nat.le_refl idx)).trans hidx3)
    have hdecomp : ∀ u v, Edge s.open_archives u v →
        (u = r.archive ∧ v ∈ r.open_children) ∨
        Edge (s.open_archives.set idx { r with open_children := [] }) u v := by
      intro u v he
      obtain ⟨i, ru, hi, hua, hv⟩ := (edge_iff_position _ u v).mp he
      by_cases hii : i = idx
      · subst hii
        have hrur : ru = r := Option.some.inj (hi.symm.trans hr)
        subst hrur
        exact Or.inl ⟨hua.symm, hv⟩
      · exact Or.inr ((edge_iff_position _ u v).mpr
          ⟨i, ru, (List.getElem?_set_ne (fun he2 => hii he2.symm)).trans hi, hua, hv⟩)
    rw [hstep]
    refine ⟨F1, F2.trans W1, F3, shrinkL_trans hShrink0 (shrinkL_trans W5 F4), F5,
      ?_, ?_, F8⟩
    · intro u v he hdead
      rcases hdecomp u v he with ⟨rfl, hvcs⟩ | he3
      · intro hvm
        exact W6 v hvcs (handles_subset_of_shrinkL F4 v hvm)
      · by_cases hu_w : u ∈ handles (closeChildrenLoop env f r.open_children
            { (deleteBookmarksInArchive env r.archive (announceE s "archive_closing")).2 with
                open_archives :=
                  s.open_archives.set idx { r with open_children := [] } }).open_archives
        · have hu_eq : u = r.archive := by
            by_contra hne
            exact hdead (F6 u hu_w hne)
          subst hu_eq
          exfalso
          obtain ⟨i, ru, hi, hua, hv⟩ := (edge_iff_position _ _ v).mp he3
          have hieq : i = idx := archive_position_unique _ hWF3.1 i idx ru
            ⟨r.archive, r.resource, []⟩ hi hidx3 (by rw [hua])
          rw [hieq, hidx3] at hi
          have hru : ru = ⟨r.archive, r.resource, []⟩ := (Option.some.inj hi).symm
          rw [hru] at hv
          exact (List.not_mem_nil v) hv
        · intro hvm
          exact (W7 u v he3 hu_w) (handles_subset_of_shrinkL F4 v hvm)
    · intro u v he
      rcases hdecomp u v he with ⟨rfl, hvcs⟩ | he3
      · exact Or.inr (Or.inr (fun hvm => W6 v hvcs (handles_subset_of_shrinkL F4 v hvm)))
      · rcases W8 u v he3 with he4 | hu | hv
        · by_cases hvp : v = r.archive
          · subst hvp
            exact Or.inr (Or.inr F5)
          · exact Or.inl (F7 u v he4 hvp)
        · exact Or.inr (Or.inl (fun hm => hu (handles_subset_of_shrinkL F4 u hm)))
        · exact Or.inr (Or.inr (fun hm => hv (handles_subset_of_shrinkL F4 v hm)))

/-- C1: a managed close of a tracked archive (valid index, well-formed
registry) succeeds and transitively closes the archive's entire tracked
descendant subtree, each nested close running the full close procedure:
afterwards neither the closed archive nor any archive reachable from it
through recorded parent/child edges has a registry record, and none of
those handles appears in any remaining registry record's child list. -/
theorem closeArchive_cascades (env : Env) (idx : Nat) (s : ManagerState)
    (r : OpenArchive)
    (hWF : WFr env s.objects s.open_archives)
    (hidx : s.open_archives[idx]? = some r) :
    (closeArchive env idx s).1 = true ∧
    ∀ x, Reaches s.open_archives r.archive x →
      x ∉ handles (closeArchive env idx s).2.open_archives ∧
      ∀ r2 ∈ (closeArchive env idx s).2.open_archives, x ∉ r2.open_children := by
  unfold closeArchive
  obtain ⟨M1, M2, M3, M4, M5, M6, M7, M8⟩ := closeSpec_all env s.open_archives.length
    idx s r hWF hidx (by omega)
  refine ⟨M1, ?_⟩
  intro x hreach
  have hdead : x ∉ handles
      (closeArchiveFuel env s.open_archives.length idx s).2.open_archives :=
    reach_dead s.open_archives _ M6 r.archive M5 x hreach
  refine ⟨hdead, ?_⟩
  intro r2 hr2 hx
  obtain ⟨l2, hsub, hf⟩ := M4
  obtain ⟨r0, hr0l2, hR⟩ := forall2_mem_right hf r2 hr2
  have hr0l : r0 ∈ s.open_archives := hsub.subset hr0l2
  have hx0 : x ∈ r0.open_children := hR.2.subset hx
  have hap : apArchive s.objects env x = some r0.archive := hWF.2.1 r0 hr0l x hx0
  rcases Relation.ReflTransGen.cases_tail hreach with hxr | ⟨u, hpu, hedge⟩
  · rw [hxr] at hx
    exact M8 r2 hr2 hx
  · obtain ⟨ru, hrul, hrua, hxu⟩ := hedge
    have hap2 : apArchive s.objects env x = some u := by
      rw [← hrua]
      exact hWF.2.1 ru hrul x hxu
    have hr0u : r0.archive = u := Option.some.inj (hap.symm.trans hap2)
    have hudead : u ∉ handles
        (closeArchiveFuel env s.open_archives.length idx s).2.open_archives :=
      reach_dead s.open_archives _ M6 r.archive M5 u hpu
    exact hudead ((mem_handles_iff _ u).mpr ⟨r2, hr2, hR.1.trans hr0u⟩)

/-- Witness for C1 at a concrete two-deep chain: closing the root archive 0
(children 1, which has child 2) succeeds and removes every reachable handle
from the registry and from all remaining child lists. -/
theorem closeArchive_cascades_witness :
    (closeArchive envC1w 0 sC1w).1 = true ∧
    ∀ x, Reaches sC1w.open_archives 0 x →
      x ∉ handles (closeArchive envC1w 0 sC1w).2.open_archives ∧
      ∀ r2 ∈ (closeArchive envC1w 0 sC1w).2.open_archives, x ∉ r2.open_children :=
  closeArchive_cascades envC1w 0 sC1w ⟨0, true, [1]⟩ (by unfold WFr; decide) rfl
